import Mathlib

/-!
Verification of the writers_dashboard repository reorganization tools:
`src/repo_reorg.py` (tree scanner, duplicate detector, destination
classifier, not-needed filter, move planner/executor) and
`tools/polish_links.py` (link index builder and link remediation engine).

Paths inside `repo_reorg.py` are slash-normalized relative path strings and
every heuristic works at character level (substring / prefix tests), so that
program is embedded over `List Char`.  `polish_links.py` computes with parsed
filesystem paths (parent directories, relative routes), so that program is
embedded over segment lists `List (List Char)`.
-/

set_option maxHeartbeats 1000000

instance {ε α : Type} [DecidableEq ε] [DecidableEq α] : DecidableEq (Except ε α) :=
  fun x y =>
    match x, y with
    | .error a, .error b => decidable_of_iff (a = b) (by simp)
    | .ok a, .ok b => decidable_of_iff (a = b) (by simp)
    | .error _, .ok _ => isFalse (by simp)
    | .ok _, .error _ => isFalse (by simp)

/-- The characters of a string literal. -/
def strL (s : String) : List Char := s.toList

/-- ASCII lower-casing of a single character.  Models Python `str.lower`
restricted to ASCII, which is the alphabet of every constant in the code. -/
def asciiLower (c : Char) : Char :=
  if 'A' ≤ c ∧ c ≤ 'Z' then Char.ofNat (c.toNat + 32) else c

/-- Models Python `str.lower` on a whole string. -/
def lowerStr (s : List Char) : List Char := s.map asciiLower

/-- Boolean prefix test on character lists; models Python `str.startswith`. -/
def prefixB : List Char → List Char → Bool
  | [], _ => true
  | _ :: _, [] => false
  | a :: as, b :: bs => if a = b then prefixB as bs else false

/-- Boolean substring test; models the Python `in` operator on strings. -/
def containsStr (n : List Char) : List Char → Bool
  | [] => prefixB n []
  | c :: t => prefixB n (c :: t) || containsStr n t

/-- Whether the needle could match starting at the head of `s`, comparing
only the overlapping characters (used to reason about substring tests
across an append boundary). -/
def compatB (n s : List Char) : Bool := prefixB (n.take s.length) s

/-- No occurrence of the needle can start inside `pre`: every nonempty
suffix of `pre` mismatches the needle within the overlap. -/
def noStartB (n : List Char) : List Char → Bool
  | [] => true
  | c :: t => !(compatB n (c :: t)) && noStartB n t

/-- Splits a path string on slashes; models `pathlib.PurePath.parts` for a
relative slash-normalized path and `str.split("/")`. -/
def splitSlash (s : List Char) : List (List Char) := s.splitOn '/'

/-- The part of a path string after the final slash; models `PurePath.name`
for a slash-normalized path. -/
def lastSeg (s : List Char) : List Char :=
  (s.reverse.takeWhile (fun c => c ≠ '/')).reverse

/-- Position of the last dot of a name; models `str.rfind(".")`. -/
def rfindDot (n : List Char) : Option Nat :=
  match n.reverse.findIdx? (fun c => c = '.') with
  | none => none
  | some j => some (n.length - 1 - j)

/-- Models `pathlib.PurePath.suffix`: the final extension including its dot;
empty unless the last dot sits strictly inside the name (`0 < i < len - 1`). -/
def suffixOf (n : List Char) : List Char :=
  match rfindDot n with
  | none => []
  | some i => if 0 < i ∧ i + 1 < n.length then n.drop i else []

/-- Models `Path(name).suffix.lower()`. -/
def extOf (n : List Char) : List Char := lowerStr (suffixOf n)

/-- Decimal digit characters of a number (structural fuel recursion so that
the kernel can evaluate it); models `str(i)` for naturals. -/
def natCharsAux : Nat → Nat → List Char
  | 0, _ => []
  | _ + 1, 0 => []
  | fuel + 1, n => natCharsAux fuel (n / 10) ++ [Nat.digitChar (n % 10)]

/-- Models Python `str(i)` for a natural number. -/
def natChars (n : Nat) : List Char :=
  if n = 0 then ['0'] else natCharsAux (n + 1) n

-- Stable descending sort machinery shared by both programs.  Python
-- `sorted(xs, key=k, reverse=True)` is a stable sort; with `ge x y`
-- meaning "x has key ≥ key of y", the result is insertion sort where an
-- element is placed before the first earlier-processed element it is ≥ to.

/-- One insertion step of a stable descending sort. -/
def insD {α : Type} (ge : α → α → Bool) (x : α) : List α → List α
  | [] => [x]
  | y :: ys => if ge x y then x :: y :: ys else y :: insD ge x ys

/-- Stable descending sort; models `sorted(xs, key=k, reverse=True)` for a
total preorder `ge`. -/
def sortD {α : Type} (ge : α → α → Bool) : List α → List α
  | [] => []
  | x :: xs => insD ge x (sortD ge xs)

/-- First maximum of a list under `ge` (ties resolved to the earliest
element). -/
def firstMaxD {α : Type} (ge : α → α → Bool) : List α → Option α
  | [] => none
  | x :: xs =>
    match firstMaxD ge xs with
    | none => some x
    | some k => some (if ge x k then x else k)

namespace RepoReorg

/-!  Embedding of `src/repo_reorg.py`.  Relative paths are the
slash-normalized strings produced by `normalize_rel`, modelled as
`List Char`. -/

/-- `NOT_NEEDED_EXTENSIONS` from the source. -/
def NOT_NEEDED_EXTENSIONS : List (List Char) :=
  [strL ".zip", strL ".7z", strL ".rar", strL ".bak", strL ".tmp", strL ".log"]

/-- `KEEP_EXTENSIONS` from the source. -/
def KEEP_EXTENSIONS : List (List Char) :=
  [strL ".html", strL ".css", strL ".js", strL ".json", strL ".md", strL ".txt",
   strL ".png", strL ".jpg", strL ".jpeg", strL ".webp", strL ".gif", strL ".svg",
   strL ".py", strL ".ts", strL ".tsx", strL ".jsx", strL ".yaml", strL ".yml",
   strL ".csv"]

/-- `SKIP_DIRS` from the source. -/
def SKIP_DIRS : List (List Char) :=
  [strL ".git", strL ".svn", strL ".hg", strL "__pycache__",
   strL "node_modules", strL ".venv"]

/-- `BUILD_PLAN_HINTS` from the source. -/
def BUILD_PLAN_HINTS : List (List Char) :=
  [strL "Build_plan", strL "MASTER_BUILD_PLAN", strL "MICROSTEP", strL "microsteps",
   strL "module", strL "m0", strL "m1", strL "m2", strL "m3", strL "m4",
   strL "m5", strL "m6", strL "m7", strL "m8"]

/-- `CANONICAL_ROOT_FILES` from the source.  The third literal is the value
of `"MASTER_BUILD_PLAN_CONSOLIDATED.html".lower()` written out. -/
def CANONICAL_ROOT_FILES : List (List Char) :=
  [strL "MASTER_BUILD_PLAN_CONSOLIDATED.html",
   strL "MASTER_BUILD_PLAN_CONSOLIDATED_V2.html",
   strL "master_build_plan_consolidated.html",
   strL "index.html"]

/-- `is_in_skip_dir`: any path part is a skip directory name. -/
def isInSkipDir (rel : List Char) : Bool :=
  (splitSlash rel).any (fun part => part ∈ SKIP_DIRS)

/-- `choose_destination(root, rel, name)`: the ordered destination rule
table.  Since `name` is a base name, `Path(name).name` is `name` itself.
Rule 2 returns `rel.replace("\\", "/")`, which is `rel` because
`normalize_rel` already slash-normalized it. -/
def chooseDestination (rel name : List Char) : List Char × List Char :=
  let rel_l := lowerStr rel
  let name_l := lowerStr name
  let ext := extOf name
  if name ∈ CANONICAL_ROOT_FILES ∨ name_l ∈ CANONICAL_ROOT_FILES then
    (strL "Build_plan/" ++ name, strL "Canonical plan entrypoint")
  else if prefixB (strL "build_plan/") rel_l then
    (rel, strL "Already in Build_plan")
  else if ext = strL ".html" ∧
      BUILD_PLAN_HINTS.any (fun h => containsStr (lowerStr h) rel_l) then
    (strL "Build_plan/" ++ name, strL "HTML appears to be build-plan related")
  else if ext = strL ".md" then
    if [strL "contract", strL "schema", strL "spec"].any
        (fun k => containsStr k rel_l) then
      (strL "spec/" ++ name, strL "Spec-like markdown")
    else
      (strL "docs/" ++ name, strL "General markdown documentation")
  else if ext ∈ [strL ".json", strL ".yaml", strL ".yml"] ∧
      [strL "schema", strL "contract", strL "spec"].any
        (fun k => containsStr k rel_l) then
    (strL "spec/" ++ name, strL "Schema/contract file")
  else if ext ∈ [strL ".py", strL ".js", strL ".ts", strL ".tsx", strL ".jsx"] then
    if [strL "tool", strL "script", strL "build", strL "validate", strL "export"].any
        (fun k => containsStr k rel_l) then
      (strL "tools/" ++ name, strL "Tooling script")
    else
      (strL "src/" ++ name, strL "Source code")
  else if ext ∈ [strL ".png", strL ".jpg", strL ".jpeg", strL ".webp",
      strL ".gif", strL ".svg"] then
    if [strL "build_plan", strL "micro", strL "reader", strL "module",
        strL "m0", strL "m1", strL "m2", strL "m3", strL "m4",
        strL "m5", strL "m6", strL "m7", strL "m8"].any
        (fun k => containsStr k rel_l) then
      (strL "Build_plan/assets/" ++ name, strL "Build-plan asset image")
    else
      (strL "docs/assets/" ++ name, strL "Documentation asset image")
  else if [strL "fixture", strL "toybook", strL "book1window"].any
      (fun k => containsStr k rel_l) then
    (strL "fixtures/" ++ name, strL "Fixture file")
  else if [strL "golden", strL "snapshot", strL "expected_output"].any
      (fun k => containsStr k rel_l) then
    (strL "golden/" ++ name, strL "Golden output")
  else if ext ∈ KEEP_EXTENSIONS then
    (strL "docs/misc/" ++ name, strL "Misc keep-extension file")
  else
    (strL "archive/_unknown_review/" ++ name, strL "Unknown file type; review")

/-- `classify_not_needed(path, rel)`: reason if the file should be archived
as not needed.  `path.suffix.lower()` is the extension of the base name. -/
def classifyNotNeeded (name rel : List Char) : Option (List Char) :=
  let ext := extOf name
  let rel_l := lowerStr rel
  if ext ∈ NOT_NEEDED_EXTENSIONS then
    some (strL "Packaged artifact (" ++ ext ++ strL ")")
  else if [strL "old", strL "backup", strL "export", strL "exports",
      strL "tmp", strL "temp"].any (fun k => containsStr k rel_l) then
    if containsStr (strL "build_plan") rel_l then none
    else some (strL "Looks like export/backup/temp")
  else none

/-- The `action` strings assigned by the planner. -/
inductive Action where
  | KEEP_IN_PLACE
  | MOVE_TO_DEST
  | MOVE_TO_ARCHIVE_DUPLICATE
  | MOVE_TO_ARCHIVE_NOT_NEEDED
  | MOVE_TO_ARCHIVE_UNKNOWN
deriving DecidableEq, Repr

/-- The `FileRecord` dataclass.  `abs_path` is omitted: under a fixed root
it is determined by `rel_path`, and the code derives `name` and the hash/dup
keys from it exactly as `lastSeg rel_path` does. -/
structure FileRecord where
  rel_path : List Char
  size : Nat
  mtime : Nat
  sha256 : Option (List Char) := none
  action : Action := .KEEP_IN_PLACE
  reason : List Char := []
  dest_rel_path : Option (List Char) := none
deriving DecidableEq, Repr

/-- One file of the scanned tree as the filesystem presents it to the scan
loop: its normalized relative path, the result of `p.stat()` (`none` models
the call raising `OSError`), and the result of `sha256_file(p)` (`.error e`
models the exception message caught by the `except` clause). -/
inductive HashRes where
  | ok (sha : List Char)
  | err (msg : List Char)
deriving DecidableEq, Repr

structure FileIn where
  rel : List Char
  stat : Option (Nat × Nat)
  hashRes : HashRes
deriving DecidableEq, Repr

/-- Modification time used by the duplicate sort (`x.stat().st_mtime`);
groups only ever hold files whose `stat` succeeded. -/
def FileIn.mtimeOf (f : FileIn) : Nat := (f.stat.map Prod.snd).getD 0

/-- `hash_map.setdefault(sha, []).append(p)`, building groups so that each
group lists its members in scan order. -/
def consGroup (sha : List Char) (f : FileIn) :
    List (List Char × List FileIn) → List (List Char × List FileIn)
  | [] => [(sha, [f])]
  | (k, g) :: rest =>
    if k = sha then (k, f :: g) :: rest else (k, g) :: consGroup sha f rest

/-- The scan loop (`for p in root.rglob("*")`): skips files under skip
directories, aborts on a `stat` failure (the call is not guarded by any
`try`), hashes when `--hash` is set, records a caught hash failure as a
reason string, and collects the digest groups. -/
def scan (hashFlag : Bool) :
    List FileIn → Except Unit (List FileRecord × List (List Char × List FileIn))
  | [] => .ok ([], [])
  | f :: fs =>
    if isInSkipDir f.rel then scan hashFlag fs
    else
      match f.stat with
      | none => .error ()
      | some st =>
        match scan hashFlag fs with
        | .error e => .error e
        | .ok (recs, groups) =>
          if hashFlag then
            match f.hashRes with
            | .ok sha =>
              .ok ({ rel_path := f.rel, size := st.1, mtime := st.2,
                     sha256 := some sha } :: recs,
                   consGroup sha f groups)
            | .err msg =>
              .ok ({ rel_path := f.rel, size := st.1, mtime := st.2,
                     reason := strL "Hash failed: " ++ msg } :: recs,
                   groups)
          else
            .ok ({ rel_path := f.rel, size := st.1, mtime := st.2 } :: recs,
                 groups)

/-- Sort key of the duplicate detector: descending `st_mtime`, stable. -/
def mtGe (a b : FileIn) : Bool := Nat.ble b.mtimeOf a.mtimeOf

/-- The duplicate pass: for every digest group of size > 1, sort by
modification time descending (stable), keep the head, and mark the rest.
Returns the set `dup_paths` as a list of relative paths. -/
def dupPathsOf (groups : List (List Char × List FileIn)) : List (List Char) :=
  groups.foldr
    (fun g acc =>
      if 1 < g.2.length then ((sortD mtGe g.2).tail.map FileIn.rel) ++ acc
      else acc)
    []

/-- `hash_map[sha]` (empty when the digest is absent). -/
def groupOf (gs : List (List Char × List FileIn)) (sha : List Char) :
    List FileIn :=
  ((gs.find? (fun g => g.1 = sha)).map Prod.snd).getD []

/-- The destination-classification tail of the planning loop: identity
check, unknown-review check, otherwise a planned move. -/
def planDest (rec : FileRecord) (rel name : List Char) : FileRecord :=
  let dr := chooseDestination rel name
  if rel = dr.1 then
    { rec with
      action := .KEEP_IN_PLACE, reason := dr.2, dest_rel_path := some dr.1 }
  else if prefixB (strL "archive/_unknown_review/") dr.1 then
    { rec with
      action := .MOVE_TO_ARCHIVE_UNKNOWN, reason := dr.2,
      dest_rel_path := some dr.1 }
  else
    { rec with
      action := .MOVE_TO_DEST, reason := dr.2, dest_rel_path := some dr.1 }

/-- One iteration of the planning loop (`for rec in records`): duplicate
check, then not-needed check (skipped for paths under `archive/`), then
destination classification. -/
def planRecord (hashFlag : Bool) (dupPaths : List (List Char))
    (rec : FileRecord) : FileRecord :=
  let rel := rec.rel_path
  let name := lastSeg rel
  let rel_l := lowerStr rel
  if hashFlag ∧ rel ∈ dupPaths then
    { rec with
      action := .MOVE_TO_ARCHIVE_DUPLICATE,
      reason := strL "Duplicate content (sha256 match)",
      dest_rel_path := some (strL "archive/_duplicates/" ++ name) }
  else
    match classifyNotNeeded name rel with
    | some r =>
      if prefixB (strL "archive/") rel_l then planDest rec rel name
      else
        { rec with
          action := .MOVE_TO_ARCHIVE_NOT_NEEDED, reason := r,
          dest_rel_path := some (strL "archive/_not_needed/" ++ name) }
    | none => planDest rec rel name

/-- The whole read-only pass of `main`: scan, duplicate detection,
per-record action assignment. -/
def runPlan (hashFlag : Bool) (files : List FileIn) :
    Except Unit (List FileRecord) :=
  match scan hashFlag files with
  | .error e => .error e
  | .ok (recs, groups) =>
    .ok (recs.map (planRecord hashFlag (dupPathsOf groups)))

/-- Planning a single already-scanned relative path with hashing disabled
(the shape of a re-plan after an applied run). -/
def planOne (rel : List Char) : FileRecord :=
  planRecord false [] { rel_path := rel, size := 0, mtime := 0 }

/-- The filesystem as the move executor sees it: an association list from
path to file content (represented by its digest); keys are unique in any
real tree. -/
abbrev FS := List (List Char × List Char)

/-- `path.exists()` / reading a file, as a lookup. -/
def lookupFS (fs : FS) (p : List Char) : Option (List Char) :=
  (fs.find? (fun e => e.1 = p)).map Prod.snd

/-- The disambiguated collision candidate `parent / f"{stem}__{i}{suffix}"`
of `move_file`, built on the flat path string: the suffix of the base name
is cut off, `__i` is inserted, and the suffix is restored. -/
def candidateName (dst : List Char) (i : Nat) : List Char :=
  let suf := suffixOf (lastSeg dst)
  dst.take (dst.length - suf.length) ++ strL "__" ++ natChars i ++ suf

/-- The `while True: i += 1` search of `move_file` for the first unused
disambiguated name, starting at `i`.  The Python loop always terminates at
the first free index because a finite tree cannot occupy every candidate;
the fuel bound makes the recursion structural, and `none` (fuel exhausted,
unreachable for any tree with fewer than a million collisions) is treated
by the caller as leaving the tree unchanged. -/
def findFreeIdx (fs : FS) (dst : List Char) : Nat → Nat → Option Nat
  | 0, _ => none
  | fuel + 1, i =>
    if (lookupFS fs (candidateName dst i)).isSome then
      findFreeIdx fs dst fuel (i + 1)
    else some i

/-- `move_file(src, dest)`: if the destination exists, disambiguate with a
numeric suffix starting at 2; then `shutil.move` (remove the source entry,
add the destination entry with the source's content). -/
def moveFile (fs : FS) (src dst : List Char) : FS :=
  match lookupFS fs src with
  | none => fs
  | some c =>
    if (lookupFS fs dst).isSome then
      match findFreeIdx fs dst 1000000 2 with
      | some i =>
        (candidateName dst i, c) :: fs.eraseP (fun e => decide (e.1 = src))
      | none => fs
    else (dst, c) :: fs.eraseP (fun e => decide (e.1 = src))

/-- The apply loop of `main` (`for src, dst in actions`): skip sources that
no longer exist, skip files under the report directory, move the rest. -/
def applyRun (reportDir : List Char) (acts : List (List Char × List Char))
    (fs : FS) : FS :=
  acts.foldl
    (fun cur a =>
      if (lookupFS cur a.1).isNone then cur
      else if prefixB (reportDir ++ strL "/") a.1 then cur
      else moveFile cur a.1 a.2)
    fs

/-- The multiset of file contents (by digest) present in a tree. -/
def contents (fs : FS) : Multiset (List Char) :=
  (fs.map Prod.snd : List (List Char))

end RepoReorg

namespace PolishLinks

/-!  Embedding of `tools/polish_links.py`.  Absolute filesystem paths are
segment lists (`APath`); attribute values and rendered relative routes are
character lists.  Rendering of a path joins segments with `/` (the code
normalizes every emitted path string to forward slashes). -/

abbrev Seg := List Char
abbrev APath := List Seg

/-- `SKIP_PREFIXES` from the source. -/
def SKIP_PREFIXES : List (List Char) :=
  [strL "http://", strL "https://", strL "mailto:", strL "tel:",
   strL "#", strL "javascript:"]

/-- ASCII whitespace recognised by Python `str.strip()`. -/
def isSpaceB (c : Char) : Bool :=
  c = ' ' ∨ c = '\t' ∨ c = '\n' ∨ c = '\r' ∨ c = '\x0b' ∨ c = '\x0c'

/-- Models Python `str.strip()`. -/
def stripWs (v : List Char) : List Char :=
  ((v.dropWhile isSpaceB).reverse.dropWhile isSpaceB).reverse

/-- `is_external(v)`: strip, lower-case, test the skip prefixes. -/
def isExternal (v : List Char) : Bool :=
  let w := lowerStr (stripWs v)
  SKIP_PREFIXES.any (fun p => prefixB p w)

/-- The guard `re.match(r"^[A-Za-z]:[\\/]", val)`: an absolute disk path. -/
def isAbsDisk (v : List Char) : Bool :=
  match v with
  | a :: b :: c :: _ =>
    decide ((('A' ≤ a ∧ a ≤ 'Z') ∨ ('a' ≤ a ∧ a ≤ 'z')) ∧
      b = ':' ∧ (c = '\\' ∨ c = '/'))
  | _ => false

/-- The guard `val.lower().startswith("data:")`: a data URI. -/
def isDataURI (v : List Char) : Bool := prefixB (strL "data:") (lowerStr v)

/-- The characters before the first occurrence of `c`. -/
def takeUntil (c : Char) (s : List Char) : List Char :=
  s.takeWhile (fun x => x ≠ c)

/-- The characters after the first occurrence of `c` (empty if absent). -/
def afterFirst (c : Char) (s : List Char) : List Char :=
  (s.dropWhile (fun x => x ≠ c)).drop 1

/-- Value of a hex digit; models the table used by `urllib.parse.unquote`. -/
def hexVal (c : Char) : Option Nat :=
  if '0' ≤ c ∧ c ≤ '9' then some (c.toNat - 48)
  else if 'a' ≤ c ∧ c ≤ 'f' then some (c.toNat - 87)
  else if 'A' ≤ c ∧ c ≤ 'F' then some (c.toNat - 55)
  else none

/-- Percent-decoding of `urllib.parse.unquote` (invalid escapes are kept
verbatim). -/
def percentDecode : List Char → List Char
  | [] => []
  | '%' :: h1 :: h2 :: rest =>
    match hexVal h1, hexVal h2 with
    | some a, some b => Char.ofNat (16 * a + b) :: percentDecode rest
    | _, _ => '%' :: percentDecode (h1 :: h2 :: rest)
  | c :: rest => c :: percentDecode rest

/-- `strip_fragment_query(v)` = `unquote(urlparse(v).path)` for the
relative references this tool rewrites: `urlparse` splits the fragment off
at the first `#`, then the query off at the first `?`. -/
def stripFragmentQuery (v : List Char) : List Char :=
  percentDecode (takeUntil '?' (takeUntil '#' v))

/-- `urlparse(v).fragment`: everything after the first `#`. -/
def fragmentOf (v : List Char) : List Char := afterFirst '#' v

/-- `urlparse(v).query`: after the first `?` of the pre-fragment part. -/
def queryOf (v : List Char) : List Char := afterFirst '?' (takeUntil '#' v)

/-- `preserve_suffix(original, new_path_only)`: re-append the original
query string and fragment. -/
def preserveSuffix (original newPath : List Char) : List Char :=
  newPath ++ (if queryOf original ≠ [] then '?' :: queryOf original else [])
    ++ (if fragmentOf original ≠ [] then '#' :: fragmentOf original else [])

/-- Path normalization of `Path.resolve()` (symlink-free): drop `.` and
empty segments, let `..` pop. -/
def normSegs (ps : APath) : APath :=
  ps.foldl
    (fun acc s =>
      if s = strL "." ∨ s = [] then acc
      else if s = strL ".." then acc.dropLast
      else acc ++ [s])
    []

/-- `resolve_target`: `(html_file.parent / raw).resolve()`. -/
def resolveTarget (docDir : APath) (rawPath : List Char) : APath :=
  if prefixB (strL "/") rawPath then normSegs (splitSlash rawPath)
  else normSegs (docDir ++ splitSlash rawPath)

/-- Final segment of a path value. -/
def lastOf (p : APath) : Seg := p.getLastD []

/-- `Path(raw_path).name`: the last non-empty path component. -/
def pathName (raw : List Char) : List Char :=
  lastOf ((splitSlash raw).filter (fun s => s ≠ []))

/-- `idx.setdefault(key, []).append(p)` with groups kept in scan order. -/
def consGroupP (k : Seg) (p : APath) :
    List (Seg × List APath) → List (Seg × List APath)
  | [] => [(k, [p])]
  | (k2, g) :: rest =>
    if k2 = k then (k2, p :: g) :: rest else (k2, g) :: consGroupP k p rest

/-- `build_filename_index`: lower-cased base name to all paths bearing it,
each group in enumeration order. -/
def buildIndex : List APath → List (Seg × List APath)
  | [] => []
  | p :: rest => consGroupP (lowerStr (lastOf p)) p (buildIndex rest)

/-- `filename_index.get(filename, [])`. -/
def lookupIdx (idx : List (Seg × List APath)) (k : Seg) : List APath :=
  ((idx.find? (fun e => e.1 = k)).map Prod.snd).getD []

/-- Common-prefix elimination of `os.path.relpath`. -/
def dropCommon : APath → APath → APath × APath
  | a :: as, b :: bs =>
    if a = b then dropCommon as bs else (a :: as, b :: bs)
  | as, bs => (as, bs)

/-- `os.path.relpath(target, start=fromDir)` as segments: one `..` per
remaining segment of the start directory, then the remaining segments of
the target. -/
def relSegs (fromDir target : APath) : APath :=
  let pr := dropCommon fromDir target
  List.replicate pr.1.length (strL "..") ++ pr.2

/-- Rendering a path as a forward-slash string. -/
def renderP (p : APath) : List Char := List.intercalate ['/'] p

/-- `to_rel(from_dir, target)`: the relative route as a string. -/
def toRel (fromDir target : APath) : List Char := renderP (relSegs fromDir target)

/-- `relp.count("/") + 1` of `choose_best_candidate` (the empty route
renders as `os.path.relpath`'s `"."`, which also has depth 1). -/
def depthOf (curDir p : APath) : Nat := (toRel curDir p).count '/' + 1

/-- `p.parent.resolve() == cur_dir`. -/
def sameDirB (curDir p : APath) : Bool := decide (p.dropLast = curDir)

/-- Strict lexicographic comparison of strings by code point; models
Python `<` on `str`. -/
def strLtB : List Char → List Char → Bool
  | [], [] => false
  | [], _ :: _ => true
  | _ :: _, [] => false
  | a :: as, b :: bs => if a = b then strLtB as bs else decide (a < b)

/-- `score(p) ≥ score(q)` in Python tuple order for the score tuple
`(same_dir, -depth, str(p).lower())` of `choose_best_candidate`. -/
def scoreGe (curDir : APath) (p q : APath) : Bool :=
  if sameDirB curDir p ≠ sameDirB curDir q then
    sameDirB curDir p && !sameDirB curDir q
  else if depthOf curDir p ≠ depthOf curDir q then
    decide (depthOf curDir p < depthOf curDir q)
  else
    !(strLtB (lowerStr (renderP p)) (lowerStr (renderP q)))

/-- `choose_best_candidate`: stable descending sort by score, first
element. -/
def chooseBestCandidate (currentHtml : APath) (cands : List APath) : APath :=
  (sortD (scoreGe currentHtml.dropLast) cands).headD []

/-- Modelled from the spec: the same candidate selection but with the raw
absolute path string as the final tie-break component, following the
spec's words "file's absolute path string as a final deterministic
tie-break" (the code lower-cases the string first). -/
def scoreGeSpec (curDir : APath) (p q : APath) : Bool :=
  if sameDirB curDir p ≠ sameDirB curDir q then
    sameDirB curDir p && !sameDirB curDir q
  else if depthOf curDir p ≠ depthOf curDir q then
    decide (depthOf curDir p < depthOf curDir q)
  else
    !(strLtB (renderP p) (renderP q))

/-- Modelled from the spec: candidate selection maximizing the spec's
score tuple. -/
def specChooseBestCandidate (currentHtml : APath) (cands : List APath) : APath :=
  (sortD (scoreGeSpec currentHtml.dropLast) cands).headD []

/-- Issue status strings. -/
inductive Status where
  | BROKEN
  | FIXED
deriving DecidableEq, Repr

/-- The `LinkIssue` dataclass.  `file` and `resolved_from` hold the
document path and its directory relative to the repo root. -/
structure LinkIssue where
  file : APath
  attr : List Char
  original : List Char
  resolved_from : APath
  status : Status
  suggestion : List Char
deriving DecidableEq, Repr

/-- One `href`/`src` attribute occurrence as delivered by the regex
scanner: attribute name, value, and the value's character span. -/
structure AttrMatch where
  attr : List Char
  val : List Char
  startPos : Nat
  endPos : Nat
deriving DecidableEq, Repr

/-- The body of the `for m in ATTR_RE.finditer(text)` loop for one match:
the skip chain, the existence check, and the broken/fixed bookkeeping.
Returns the issues and replacement this match contributes. -/
def processMatch (fsSet : List APath) (idx : List (Seg × List APath))
    (repo : APath) (f : APath) (m : AttrMatch) :
    List LinkIssue × List LinkIssue × List (Nat × Nat × List Char) :=
  if m.val = [] then ([], [], [])
  else if isExternal m.val then ([], [], [])
  else if isAbsDisk m.val then ([], [], [])
  else if isDataURI m.val then ([], [], [])
  else
    let rawPath := stripFragmentQuery m.val
    if rawPath = [] then ([], [], [])
    else
      let target := resolveTarget f.dropLast rawPath
      if target ∈ fsSet then ([], [], [])
      else
        let filename := lowerStr (pathName rawPath)
        match lookupIdx idx filename with
        | [] =>
          ([{ file := f.drop repo.length, attr := m.attr, original := m.val,
              resolved_from := f.dropLast.drop repo.length,
              status := .BROKEN, suggestion := [] }], [], [])
        | c :: cs =>
          let best := chooseBestCandidate f (c :: cs)
          let newVal := preserveSuffix m.val (toRel f.dropLast best)
          ([{ file := f.drop repo.length, attr := m.attr, original := m.val,
              resolved_from := f.dropLast.drop repo.length,
              status := .BROKEN, suggestion := newVal }],
           [{ file := f.drop repo.length, attr := m.attr, original := m.val,
              resolved_from := f.dropLast.drop repo.length,
              status := .FIXED, suggestion := newVal }],
           [(m.startPos, m.endPos, newVal)])

/-- All matches of one document, contributions concatenated in document
order. -/
def processDoc (fsSet : List APath) (idx : List (Seg × List APath))
    (repo : APath) (f : APath) :
    List AttrMatch → List LinkIssue × List LinkIssue × List (Nat × Nat × List Char)
  | [] => ([], [], [])
  | m :: rest =>
    let r1 := processMatch fsSet idx repo f m
    let r2 := processDoc fsSet idx repo f rest
    (r1.1 ++ r2.1, r1.2.1 ++ r2.2.1, r1.2.2 ++ r2.2.2)

/-- The whole scan of `main`: build the filename index over the build-plan
subtree, then process every HTML document (each given with its regex
matches), accumulating the `broken` and `fixed` lists and the planned
replacements. -/
def runEngine (fsSet : List APath) (bp repo : APath) :
    List (APath × List AttrMatch) →
      List LinkIssue × List LinkIssue × List (Nat × Nat × List Char)
  | [] => ([], [], [])
  | (f, ms) :: rest =>
    let idx := buildIndex (fsSet.filter (fun p => bp.isPrefixOf p))
    let r1 := processDoc fsSet idx repo f ms
    let r2 := runEngine fsSet bp repo rest
    (r1.1 ++ r2.1, r1.2.1 ++ r2.2.1, r1.2.2 ++ r2.2.2)

/-- Text files on disk, for the apply/backup phase. -/
abbrev TxtFS := List (APath × List Char)

/-- `path.exists()` / `read_text` as a lookup. -/
def lookupT (fs : TxtFS) (p : APath) : Option (List Char) :=
  (fs.find? (fun e => e.1 = p)).map Prod.snd

/-- `write_text`: create or overwrite. -/
def writeT (p : APath) (t : List Char) (fs : TxtFS) : TxtFS :=
  (p, t) :: fs.eraseP (fun e => decide (e.1 = p))

/-- `f.with_suffix(f.suffix + ".bak_polish")`: appends `.bak_polish` to
the file name. -/
def bakOf (f : APath) : APath := f.dropLast ++ [lastOf f ++ strL ".bak_polish"]

/-- The apply block of `main` for one document with a nonempty replacement
list: read the current text, write the backup only if none exists, then
write the rewritten text (`newText`, the result of applying the
replacement spans to `text`). -/
def applyDocFix (fs : TxtFS) (f : APath) (newText : List Char) : TxtFS :=
  let text := (lookupT fs f).getD []
  let fs1 :=
    if (lookupT fs (bakOf f)).isSome then fs else writeT (bakOf f) text fs
  writeT f newText fs1

end PolishLinks

namespace RepoReorg

/-- Helper for C1: a file whose metadata read succeeds but whose hashing
raises is recorded with the caught message as its reason, the default
action, and the scan of the rest of the tree continues around it. -/
theorem scan_hash_fail_mem (files : List FileIn) (recs : List FileRecord)
    (gs : List (List Char × List FileIn)) (f : FileIn) (st : Nat × Nat)
    (msg : List Char) (hscan : scan true files = .ok (recs, gs))
    (hf : f ∈ files) (hskip : isInSkipDir f.rel = false)
    (hst : f.stat = some st) (hh : f.hashRes = .err msg) :
    ({ rel_path := f.rel, size := st.1, mtime := st.2, sha256 := none,
       action := .KEEP_IN_PLACE, reason := strL "Hash failed: " ++ msg,
       dest_rel_path := none } : FileRecord) ∈ recs := by
  induction files generalizing recs gs with
  | nil => simp at hf
  | cons g fs ih =>
    simp only [scan] at hscan
    by_cases hsg : isInSkipDir g.rel
    · rw [if_pos hsg] at hscan
      rcases List.mem_cons.mp hf with hfg | hfs
      · rw [hfg] at hskip; rw [hskip] at hsg; exact absurd hsg (by simp)
      · exact ih recs gs hscan hfs
    · rw [if_neg hsg] at hscan
      cases hgst : g.stat with
      | none => rw [hgst] at hscan; simp at hscan
      | some st2 =>
        rw [hgst] at hscan
        cases hrec : scan true fs with
        | error e => rw [hrec] at hscan; simp at hscan
        | ok pr =>
          obtain ⟨recs2, gs2⟩ := pr
          rw [hrec] at hscan
          simp only [eq_self_iff_true, if_true] at hscan
          cases hgh : g.hashRes with
          | ok sha =>
            rw [hgh] at hscan
            rcases List.mem_cons.mp hf with hfg | hfs
            · rw [hfg, hgh] at hh; exact absurd hh (by simp)
            · simp only [Except.ok.injEq, Prod.mk.injEq] at hscan
              obtain ⟨hrecs, hgs⟩ := hscan
              subst hrecs
              exact List.mem_cons_of_mem _ (ih recs2 gs2 hrec hfs)
          | err m =>
            rw [hgh] at hscan
            rcases List.mem_cons.mp hf with hfg | hfs
            · simp only [Except.ok.injEq, Prod.mk.injEq] at hscan
              obtain ⟨hrecs, hgs⟩ := hscan
              subst hrecs
              subst hfg
              rw [hgh] at hh
              injection hh with hmsg
              rw [hgst] at hst
              injection hst with hst2
              subst hmsg; subst hst2
              exact List.mem_cons_self _ _
            · simp only [Except.ok.injEq, Prod.mk.injEq] at hscan
              obtain ⟨hrecs, hgs⟩ := hscan
              subst hrecs
              exact List.mem_cons_of_mem _ (ih recs2 gs2 hrec hfs)

/-- Helper for C1: the planning pass assigns a fresh reason in every
branch, so the resulting record is independent of the reason the scan had
stored (in particular a hash-failure message is overwritten). -/
theorem planRecord_reason_irrel (hashFlag : Bool) (dups : List (List Char))
    (rec : FileRecord) (r : List Char) :
    planRecord hashFlag dups { rec with reason := r } =
      planRecord hashFlag dups rec := by
  cases rec
  simp only [planRecord, planDest]

/-- Helper for C1: a file whose `p.stat()` call raises aborts the whole
scan (the call is not inside any `try`). -/
theorem scan_stat_fail (hashFlag : Bool) (files : List FileIn) (f : FileIn)
    (hf : f ∈ files) (hskip : isInSkipDir f.rel = false)
    (hst : f.stat = none) : scan hashFlag files = .error () := by
  induction files with
  | nil => simp at hf
  | cons g fs ih =>
    simp only [scan]
    by_cases hsg : isInSkipDir g.rel
    · rw [if_pos hsg]
      rcases List.mem_cons.mp hf with hfg | hfs
      · rw [hfg] at hskip; rw [hskip] at hsg; exact absurd hsg (by simp)
      · exact ih hfs
    · rw [if_neg hsg]
      cases hgst : g.stat with
      | none => rfl
      | some st2 =>
        rcases List.mem_cons.mp hf with hfg | hfs
        · rw [hfg] at hst; rw [hgst] at hst; simp at hst
        · rw [ih hfs]

end RepoReorg

/-- C1: the claim states that a per-file metadata or hashing failure is
recorded as a reason on the FileRecord, the run continues, and the failure
reason is present on the final record.  On the code the final part fails:
the planning loop assigns a classification reason in every branch, erasing
the scan-time hash-failure reason; and a metadata (`stat`) failure is not
caught at all, aborting the scan.  Shown false at the concrete input
`a.txt` whose hashing raises `boom`: the final record's reason is the
classification reason, which does not contain the failure text; and at a
single file whose `stat` raises, where the scan returns an error instead
of a record. -/
theorem c1_counterexample :
    (RepoReorg.runPlan true
        [{ rel := strL "a.txt", stat := some (1, 1),
           hashRes := .err (strL "boom") }] =
      .ok [{ rel_path := strL "a.txt", size := 1, mtime := 1,
             action := .MOVE_TO_DEST,
             reason := strL "Misc keep-extension file",
             dest_rel_path := some (strL "docs/misc/a.txt") }]) ∧
    containsStr (strL "Hash failed")
      (strL "Misc keep-extension file") = false ∧
    RepoReorg.runPlan false
        [{ rel := strL "b.txt", stat := none, hashRes := .ok [] }] =
      .error () := by
  decide

/-- C1 (amended): a hashing failure is caught: the record carries the
message `Hash failed: ...` as its reason together with the default action,
and the scan of the rest of the tree continues (part 1); however the
planning pass overwrites every record's reason, so the scan-time failure
reason never survives to the final FileRecord (part 2); and a metadata
(`stat`) failure is not caught and aborts the whole scan (part 3). -/
theorem c1_amended :
    (∀ (files : List RepoReorg.FileIn) recs gs f st msg,
      RepoReorg.scan true files = .ok (recs, gs) → f ∈ files →
      RepoReorg.isInSkipDir f.rel = false → f.stat = some st →
      f.hashRes = .err msg →
      ({ rel_path := f.rel, size := st.1, mtime := st.2, sha256 := none,
         action := .KEEP_IN_PLACE, reason := strL "Hash failed: " ++ msg,
         dest_rel_path := none } : RepoReorg.FileRecord) ∈ recs) ∧
    (∀ hashFlag dups rec r,
      RepoReorg.planRecord hashFlag dups { rec with reason := r } =
        RepoReorg.planRecord hashFlag dups rec) ∧
    (∀ hashFlag (files : List RepoReorg.FileIn) f, f ∈ files →
      RepoReorg.isInSkipDir f.rel = false → f.stat = none →
      RepoReorg.scan hashFlag files = .error ()) :=
  ⟨RepoReorg.scan_hash_fail_mem, RepoReorg.planRecord_reason_irrel,
   fun hashFlag files f hf hs hn =>
     RepoReorg.scan_stat_fail hashFlag files f hf hs hn⟩

/-- Witness for C1 (amended) at a concrete two-file tree. -/
theorem c1_amended_witness :
    ({ rel_path := strL "a.txt", size := 1, mtime := 1, sha256 := none,
       action := .KEEP_IN_PLACE, reason := strL "Hash failed: boom",
       dest_rel_path := none } : RepoReorg.FileRecord) ∈
      [({ rel_path := strL "a.txt", size := 1, mtime := 1, sha256 := none,
          action := .KEEP_IN_PLACE, reason := strL "Hash failed: boom",
          dest_rel_path := none } : RepoReorg.FileRecord),
       { rel_path := strL "c.md", size := 2, mtime := 2,
         sha256 := some (strL "h1") }] ∧
    RepoReorg.scan false
        [{ rel := strL "b.txt", stat := none, hashRes := .ok [] }] =
      .error () :=
  ⟨c1_amended.1
      [{ rel := strL "a.txt", stat := some (1, 1),
         hashRes := .err (strL "boom") },
       { rel := strL "c.md", stat := some (2, 2),
         hashRes := .ok (strL "h1") }]
      [{ rel_path := strL "a.txt", size := 1, mtime := 1, sha256 := none,
         action := .KEEP_IN_PLACE, reason := strL "Hash failed: boom",
         dest_rel_path := none },
       { rel_path := strL "c.md", size := 2, mtime := 2,
         sha256 := some (strL "h1") }]
      [(strL "h1",
        [{ rel := strL "c.md", stat := some (2, 2),
           hashRes := .ok (strL "h1") }])]
      { rel := strL "a.txt", stat := some (1, 1),
        hashRes := .err (strL "boom") }
      (1, 1) (strL "boom") (by decide) (by decide) (by decide) (by decide)
      (by decide),
   c1_amended.2.2 false
      [{ rel := strL "b.txt", stat := none, hashRes := .ok [] }]
      { rel := strL "b.txt", stat := none, hashRes := .ok [] }
      (by decide) (by decide) (by decide)⟩

/-- C6: the claim states that any file name matching a canonical
entrypoint name under case-insensitive comparison is routed by rule 1 with
the canonical-entrypoint reason.  The code instead tests
`name in CANONICAL_ROOT_FILES or name.lower() in CANONICAL_ROOT_FILES`,
and the set contains the lower-cased spelling of only one of the two
consolidated names: `master_build_plan_consolidated_v2.html` (a
case-insensitive match of `MASTER_BUILD_PLAN_CONSOLIDATED_V2.html`) falls
through rule 1 and is routed by rule 3 with the build-plan-related reason
instead. -/
theorem c6_counterexample :
    (lowerStr (strL "master_build_plan_consolidated_v2.html") ∈
      RepoReorg.CANONICAL_ROOT_FILES.map lowerStr) ∧
    (RepoReorg.chooseDestination
        (strL "master_build_plan_consolidated_v2.html")
        (strL "master_build_plan_consolidated_v2.html")).2 ≠
      strL "Canonical plan entrypoint" := by
  decide

/-- C6 (amended): every file name that is exactly a member of
`CANONICAL_ROOT_FILES`, or whose lower-cased spelling is exactly a member
(this covers all case variants of `MASTER_BUILD_PLAN_CONSOLIDATED.html`
and `index.html`, but only the exact spelling of the `_V2` name), is
routed to the canonical plan directory with the canonical-entrypoint
reason as the highest-priority rule; in particular `index.html` sitting
outside the canonical plan directory is routed there by rule 1 even
though its extension and path would also match rule 3. -/
theorem c6_amended (rel name : List Char)
    (h : name ∈ RepoReorg.CANONICAL_ROOT_FILES ∨
      lowerStr name ∈ RepoReorg.CANONICAL_ROOT_FILES) :
    RepoReorg.chooseDestination rel name =
      (strL "Build_plan/" ++ name, strL "Canonical plan entrypoint") ∧
    RepoReorg.chooseDestination (strL "m3/index.html") (strL "index.html") =
      (strL "Build_plan/index.html", strL "Canonical plan entrypoint") := by
  constructor
  · simp only [RepoReorg.chooseDestination]
    rw [if_pos h]
  · decide

/-- Witness for C6 (amended): an upper-cased `INDEX.HTML` under a
subdirectory is routed by rule 1. -/
theorem c6_amended_witness :
    RepoReorg.chooseDestination (strL "sub/INDEX.HTML") (strL "INDEX.HTML") =
      (strL "Build_plan/INDEX.HTML", strL "Canonical plan entrypoint") :=
  (c6_amended (strL "sub/INDEX.HTML") (strL "INDEX.HTML") (by decide)).1

/-- C5: the not-needed filter flags a file iff its extension is one of the
packaging/backup/log extensions, or its lower-cased path contains one of
the tokens `old, backup, export, exports, tmp, temp` and does not contain
`build_plan` anywhere as a substring (the substring suppresses the token
flag but not the extension flag); and the planner never applies the
filter's result to a record whose path already lies under the archive
tree. -/
theorem c5_not_needed_filter :
    (∀ name rel : List Char,
      (RepoReorg.classifyNotNeeded name rel).isSome = true ↔
        (extOf name ∈ RepoReorg.NOT_NEEDED_EXTENSIONS ∨
          (([strL "old", strL "backup", strL "export", strL "exports",
              strL "tmp", strL "temp"].any
                (fun k => containsStr k (lowerStr rel))) = true ∧
            containsStr (strL "build_plan") (lowerStr rel) = false))) ∧
    (∀ (hashFlag : Bool) (dups : List (List Char))
        (rec : RepoReorg.FileRecord),
      prefixB (strL "archive/") (lowerStr rec.rel_path) = true →
      (RepoReorg.planRecord hashFlag dups rec).action ≠
        RepoReorg.Action.MOVE_TO_ARCHIVE_NOT_NEEDED) := by
  constructor
  · intro name rel
    simp only [RepoReorg.classifyNotNeeded]
    split
    · simp_all
    · split
      · split
        · simp_all
        · simp_all
      · simp_all
  · intro hashFlag dups rec harch
    have hplanDest : ∀ (rec2 : RepoReorg.FileRecord) (rel name : List Char),
        (RepoReorg.planDest rec2 rel name).action ≠
          RepoReorg.Action.MOVE_TO_ARCHIVE_NOT_NEEDED := by
      intro rec2 rel name
      simp only [RepoReorg.planDest]
      split
      · simp
      · split
        · simp
        · simp
    simp only [RepoReorg.planRecord]
    split
    · simp
    · split
      · exact hplanDest _ _ _
      · exact hplanDest _ _ _

/-- Witness for C5 at concrete inputs: `old/export.zip` is flagged by its
extension, and an `archive/old.zip` record is not re-archived as
not-needed by the planner. -/
theorem c5_witness :
    ((RepoReorg.classifyNotNeeded (strL "export.zip")
        (strL "old/export.zip")).isSome = true ↔
      (extOf (strL "export.zip") ∈ RepoReorg.NOT_NEEDED_EXTENSIONS ∨
        (([strL "old", strL "backup", strL "export", strL "exports",
            strL "tmp", strL "temp"].any
              (fun k => containsStr k (lowerStr (strL "old/export.zip")))) = true ∧
          containsStr (strL "build_plan")
            (lowerStr (strL "old/export.zip")) = false))) ∧
    (RepoReorg.planRecord false []
        { rel_path := strL "archive/old.zip", size := 0, mtime := 0 }).action ≠
      RepoReorg.Action.MOVE_TO_ARCHIVE_NOT_NEEDED :=
  ⟨c5_not_needed_filter.1 (strL "export.zip") (strL "old/export.zip"),
   c5_not_needed_filter.2 false []
     { rel_path := strL "archive/old.zip", size := 0, mtime := 0 }
     (by decide)⟩

namespace PolishLinks

/-- `find?` by one key is unaffected by erasing another key's entry. -/
theorem find_erase_ne {b : Type} (p q : APath) (h : ¬ q = p) :
    ∀ xs : List (APath × b),
      List.find? (fun e => decide (e.1 = q))
          (List.eraseP (fun e => decide (e.1 = p)) xs) =
        List.find? (fun e => decide (e.1 = q)) xs
  | [] => rfl
  | x :: xs => by
    by_cases hx : x.1 = p
    · rw [List.eraseP_cons_of_pos (by simp [hx]),
        List.find?_cons_of_neg _ (by simp [hx]; exact fun hq => h hq.symm)]
    · rw [List.eraseP_cons_of_neg (by simp [hx])]
      by_cases hq : x.1 = q
      · rw [List.find?_cons_of_pos _ (by simp [hq]),
          List.find?_cons_of_pos _ (by simp [hq])]
      · rw [List.find?_cons_of_neg _ (by simp [hq]),
          List.find?_cons_of_neg _ (by simp [hq])]
        exact find_erase_ne p q h xs

/-- Looking up a key other than the one just written is unchanged by the
write. -/
theorem lookupT_writeT_ne (fs : TxtFS) (p q : APath) (t : List Char)
    (h : ¬ q = p) : lookupT (writeT p t fs) q = lookupT fs q := by
  simp only [lookupT, writeT]
  rw [List.find?_cons_of_neg _ (by simp; exact fun hq => h hq.symm)]
  rw [find_erase_ne p q h fs]

/-- Looking up the key just written yields the new value. -/
theorem lookupT_writeT_self (fs : TxtFS) (p : APath) (t : List Char) :
    lookupT (writeT p t fs) p = some t := by
  simp only [lookupT, writeT]
  rw [List.find?_cons_of_pos _ (by simp)]
  rfl

/-- The backup path differs from the document path. -/
theorem bakOf_ne (f : APath) (h : f ≠ []) : ¬ bakOf f = f := by
  intro he
  have h1 : (bakOf f).getLast? = some (lastOf f ++ strL ".bak_polish") := by
    simp [bakOf, List.getLast?_concat]
  have h2 : (bakOf f).getLast? = f.getLast? := by rw [he]
  have h3 : f.getLast? = some (lastOf f) := by
    rcases List.eq_nil_or_concat f with h4 | ⟨l2, a, h4⟩
    · exact absurd h4 h
    · subst h4
      simp [List.getLast?_concat, lastOf, List.getLastD_concat]
  rw [h2, h3] at h1
  have h5 : lastOf f = lastOf f ++ strL ".bak_polish" := Option.some.inj h1
  have h7 := congrArg List.length h5
  simp [strL] at h7

end PolishLinks

/-- C8: when remediation is applied to a document whose backup already
exists, the backup's content is untouched; and when no backup exists, the
first application writes the pre-edit content and a second application
leaves exactly that original in the backup (the backup is written at most
once, never replaced by an already-edited version). -/
theorem c8_backup_once :
    (∀ (fs : PolishLinks.TxtFS) (f : PolishLinks.APath) (t c : List Char),
      f ≠ [] →
      PolishLinks.lookupT fs (PolishLinks.bakOf f) = some c →
      PolishLinks.lookupT (PolishLinks.applyDocFix fs f t)
        (PolishLinks.bakOf f) = some c) ∧
    (∀ (fs : PolishLinks.TxtFS) (f : PolishLinks.APath)
        (t1 t2 orig : List Char),
      f ≠ [] →
      PolishLinks.lookupT fs (PolishLinks.bakOf f) = none →
      PolishLinks.lookupT fs f = some orig →
      PolishLinks.lookupT
        (PolishLinks.applyDocFix (PolishLinks.applyDocFix fs f t1) f t2)
        (PolishLinks.bakOf f) = some orig) := by
  have keep : ∀ (fs : PolishLinks.TxtFS) (f : PolishLinks.APath) (t c : List Char),
      f ≠ [] →
      PolishLinks.lookupT fs (PolishLinks.bakOf f) = some c →
      PolishLinks.lookupT (PolishLinks.applyDocFix fs f t)
        (PolishLinks.bakOf f) = some c := by
    intro fs f t c hf hbak
    simp only [PolishLinks.applyDocFix, hbak, Option.isSome_some, if_true]
    rw [PolishLinks.lookupT_writeT_ne fs f (PolishLinks.bakOf f) t
      (PolishLinks.bakOf_ne f hf)]
    exact hbak
  refine ⟨keep, ?_⟩
  intro fs f t1 t2 orig hf hbak horig
  have hfirst : PolishLinks.lookupT (PolishLinks.applyDocFix fs f t1)
      (PolishLinks.bakOf f) = some orig := by
    simp only [PolishLinks.applyDocFix, hbak, Option.isSome_none,
      Bool.false_eq_true, if_false]
    rw [PolishLinks.lookupT_writeT_ne _ f (PolishLinks.bakOf f) t1
      (PolishLinks.bakOf_ne f hf)]
    rw [horig]
    exact PolishLinks.lookupT_writeT_self fs (PolishLinks.bakOf f) orig
  exact keep _ f t2 orig hf hfirst

/-- Witness for C8 at a concrete one-document filesystem. -/
theorem c8_backup_once_witness :
    PolishLinks.lookupT
      (PolishLinks.applyDocFix
        (PolishLinks.applyDocFix [([strL "a", strL "p.html"], strL "orig")]
          [strL "a", strL "p.html"] (strL "edit1"))
        [strL "a", strL "p.html"] (strL "edit2"))
      (PolishLinks.bakOf [strL "a", strL "p.html"]) = some (strL "orig") :=
  c8_backup_once.2 [([strL "a", strL "p.html"], strL "orig")]
    [strL "a", strL "p.html"] (strL "edit1") (strL "edit2") (strL "orig")
    (by decide) (by decide) (by decide)

/-- C9: every attribute value that is external (absolute http/https URL,
`mailto:`, `tel:`, fragment-only, `javascript:`), an absolute disk path,
or a data URI is skipped by the scan loop: it contributes no broken issue,
no fixed issue, and no replacement, so it is never existence-checked,
never reported, and never rewritten. -/
theorem c9_skip_external (fsSet : List PolishLinks.APath)
    (idx : List (PolishLinks.Seg × List PolishLinks.APath))
    (repo f : PolishLinks.APath) (m : PolishLinks.AttrMatch)
    (h : PolishLinks.isExternal m.val = true ∨
      PolishLinks.isAbsDisk m.val = true ∨
      PolishLinks.isDataURI m.val = true) :
    PolishLinks.processMatch fsSet idx repo f m = ([], [], []) := by
  rcases h with h | h | h <;> simp [PolishLinks.processMatch, h, ite_self]

/-- Witness for C9 at concrete skipped values. -/
theorem c9_skip_external_witness :
    PolishLinks.processMatch [] [] [strL "root"]
        [strL "root", strL "Build_plan", strL "p.html"]
        { attr := strL "href", val := strL "mailto:a@b.example",
          startPos := 3, endPos := 10 } = ([], [], []) :=
  c9_skip_external [] [] [strL "root"]
    [strL "root", strL "Build_plan", strL "p.html"]
    { attr := strL "href", val := strL "mailto:a@b.example",
      startPos := 3, endPos := 10 }
    (Or.inl (by decide))

/-- Inserting into a stable descending sort permutes a cons. -/
theorem insD_perm {α : Type} (ge : α → α → Bool) (x : α) :
    ∀ l : List α, (insD ge x l).Perm (x :: l)
  | [] => List.Perm.refl _
  | y :: ys => by
    simp only [insD]
    split
    · exact List.Perm.refl _
    · exact (List.Perm.cons y (insD_perm ge x ys)).trans (List.Perm.swap x y ys)

/-- The stable descending sort is a permutation of its input. -/
theorem sortD_perm {α : Type} (ge : α → α → Bool) :
    ∀ l : List α, (sortD ge l).Perm l
  | [] => List.Perm.refl _
  | x :: xs =>
    (insD_perm ge x (sortD ge xs)).trans (List.Perm.cons x (sortD_perm ge xs))

/-- The head of the stable descending sort is the first maximum. -/
theorem sortD_head {α : Type} (ge : α → α → Bool) :
    ∀ l : List α, (sortD ge l).head? = firstMaxD ge l
  | [] => rfl
  | x :: xs => by
    simp only [sortD, firstMaxD]
    cases h : sortD ge xs with
    | nil =>
      have hxs : xs = [] := by
        have hlen := (sortD_perm ge xs).length_eq
        rw [h] at hlen
        exact List.length_eq_zero.mp hlen.symm
      subst hxs
      rfl
    | cons h2 t =>
      have hfm : firstMaxD ge xs = some h2 := by
        rw [← sortD_head ge xs, h]
        rfl
      rw [hfm]
      by_cases hxh : ge x h2 = true
      · simp [insD, hxh]
      · simp [insD, hxh]

/-- Characterization of the first maximum under a total transitive
comparison: the list splits as `pre ++ k :: suf` where everything before
the first maximum is strictly smaller and everything after is no
greater. -/
theorem firstMaxD_spec {α : Type} (ge : α → α → Bool)
    (htot : ∀ a b, ge a b = true ∨ ge b a = true)
    (htrans : ∀ a b c, ge a b = true → ge b c = true → ge a c = true) :
    ∀ (l : List α) (k : α), firstMaxD ge l = some k →
      ∃ pre suf, l = pre ++ k :: suf ∧ (∀ q ∈ pre, ¬ ge q k = true) ∧
        (∀ q ∈ suf, ge k q = true)
  | [], k => by simp [firstMaxD]
  | x :: xs, k => by
    intro hk
    cases hfm : firstMaxD ge xs with
    | none =>
      have hxs : xs = [] := by
        cases xs with
        | nil => rfl
        | cons y ys =>
          simp only [firstMaxD] at hfm
          cases h2 : firstMaxD ge ys <;> rw [h2] at hfm <;> simp at hfm
      subst hxs
      simp only [firstMaxD] at hk
      injection hk with hk2
      subst hk2
      exact ⟨[], [], rfl, by simp, by simp⟩
    | some k2 =>
      simp only [firstMaxD, hfm, Option.some.injEq] at hk
      obtain ⟨pre, suf, hsplit, hpre, hsuf⟩ :=
        firstMaxD_spec ge htot htrans xs k2 hfm
      by_cases hx : ge x k2 = true
      · rw [if_pos hx] at hk
        subst hk
        refine ⟨[], xs, rfl, by simp, ?_⟩
        intro q hq
        rw [hsplit] at hq
        rcases List.mem_append.mp hq with hq1 | hq2
        · exact htrans x k2 q hx (Or.resolve_left (htot q k2) (hpre q hq1))
        · rcases List.mem_cons.mp hq2 with hq3 | hq3
          · rw [hq3]; exact hx
          · exact htrans x k2 q hx (hsuf q hq3)
      · rw [if_neg hx] at hk
        subst hk
        refine ⟨x :: pre, suf, by rw [hsplit]; rfl, ?_, hsuf⟩
        intro q hq
        rcases List.mem_cons.mp hq with hq1 | hq1
        · rw [hq1]; exact hx
        · exact hpre q hq1

namespace RepoReorg

/-- Helper for C3: a tree with an entry at `src` is a permutation of that
entry put in front of the tree with the entry erased. -/
theorem perm_cons_erase_of_lookup (fs : FS) (src c : List Char)
    (h : lookupFS fs src = some c) :
    fs.Perm ((src, c) :: fs.eraseP (fun e => decide (e.1 = src))) := by
  simp only [lookupFS, Option.map_eq_some'] at h
  obtain ⟨e, hfind, hsnd⟩ := h
  have hmem : e ∈ fs := List.mem_of_find?_eq_some hfind
  have hpred : decide (e.1 = src) = true := by
    have h9 := List.find?_some hfind
    exact h9
  have hfst : e.1 = src := of_decide_eq_true hpred
  have he : e = (src, c) := by
    cases e
    simp only at hfst hsnd
    rw [hfst, hsnd]
  subst he
  have hpred2 : (fun e : List Char × List Char => decide (e.1 = src)) (src, c) =
      true := hpred
  obtain ⟨a, l1, l2, hl1, hpa, hsplit, herase⟩ :=
    @List.exists_of_eraseP (List Char × List Char)
      (fun e => decide (e.1 = src)) fs (src, c) hmem hpred2
  have hfirst : List.find? (fun e => decide (e.1 = src)) fs = some a := by
    rw [hsplit, List.find?_append, List.find?_eq_none.mpr hl1, Option.none_or]
    exact List.find?_cons_of_pos l2 hpa
  have hae : a = (src, c) := Option.some.inj (hfirst.symm.trans hfind)
  subst hae
  rw [herase, hsplit]
  exact List.perm_middle

/-- Helper for C3: `move_file` never changes the multiset of contents. -/
theorem contents_moveFile (fs : FS) (src dst : List Char) :
    contents (moveFile fs src dst) = contents fs := by
  cases hl : lookupFS fs src with
  | none => simp only [moveFile, hl]
  | some c =>
    have hperm := perm_cons_erase_of_lookup fs src c hl
    have hcont : ∀ d : List Char,
        contents ((d, c) :: fs.eraseP (fun e => decide (e.1 = src))) =
          contents fs := by
      intro d
      simp only [contents]
      have h1 : (fs.map Prod.snd).Perm
          (((src, c) :: fs.eraseP (fun e => decide (e.1 = src))).map Prod.snd) :=
        hperm.map Prod.snd
      have h2 : (((src, c) :: fs.eraseP (fun e => decide (e.1 = src))).map
          Prod.snd) =
          ((d, c) :: fs.eraseP (fun e => decide (e.1 = src))).map Prod.snd := by
        simp
      exact (Multiset.coe_eq_coe.mpr ((h2 ▸ h1).symm))
    simp only [moveFile, hl]
    split
    · split
      · exact hcont _
      · rfl
    · exact hcont _

/-- Helper for C3: no step of the apply loop changes the multiset of
contents. -/
theorem contents_applyRun (reportDir : List Char)
    (acts : List (List Char × List Char)) :
    ∀ fs : FS, contents (applyRun reportDir acts fs) = contents fs := by
  induction acts with
  | nil => intro fs; rfl
  | cons a rest ih =>
    intro fs
    simp only [applyRun, List.foldl_cons]
    have hstep : ∀ cur : FS,
        contents (if (lookupFS cur a.1).isNone then cur
          else if prefixB (reportDir ++ strL "/") a.1 then cur
          else moveFile cur a.1 a.2) = contents cur := by
      intro cur
      split
      · rfl
      · split
        · rfl
        · exact contents_moveFile cur a.1 a.2
    have := ih (if (lookupFS fs a.1).isNone then fs
      else if prefixB (reportDir ++ strL "/") a.1 then fs
      else moveFile fs a.1 a.2)
    simp only [applyRun] at this
    rw [this, hstep fs]

end RepoReorg

/-- C3: for every applied run, the multiset of file contents (by digest)
after executing the planned moves equals the multiset before it: a move
whose destination is occupied is diverted to a fresh numerically
disambiguated name (`stem__i.suffix`, `i` incremented from 2), so no file
is ever overwritten and none is deleted, for any action list. -/
theorem c3_no_data_loss (reportDir : List Char)
    (acts : List (List Char × List Char)) (fs : RepoReorg.FS) :
    RepoReorg.contents (RepoReorg.applyRun reportDir acts fs) =
      RepoReorg.contents fs :=
  RepoReorg.contents_applyRun reportDir acts fs

namespace RepoReorg

/-- Unfolding `groupOf` over a cons cell. -/
theorem groupOf_cons (a : List Char) (b : List FileIn)
    (t : List (List Char × List FileIn)) (sha : List Char) :
    groupOf ((a, b) :: t) sha = if a = sha then b else groupOf t sha := by
  by_cases h : a = sha
  · unfold groupOf
    rw [List.find?_cons_of_pos _ (by simp [h]), if_pos h]
    rfl
  · unfold groupOf
    rw [List.find?_cons_of_neg _ (by simp [h]), if_neg h]

/-- `setdefault(...).append` updates exactly the named group. -/
theorem groupOf_consGroup (sha sha2 : List Char) (f : FileIn) :
    ∀ gs, groupOf (consGroup sha2 f gs) sha =
      if sha2 = sha then f :: groupOf gs sha else groupOf gs sha
  | [] => by
    simp only [consGroup, groupOf_cons]
    by_cases h : sha2 = sha <;> simp [h, groupOf]
  | (k, g) :: rest => by
    simp only [consGroup]
    by_cases hk : k = sha2
    · rw [if_pos hk, groupOf_cons, groupOf_cons]
      by_cases hks : k = sha
      · rw [if_pos hks, if_pos hks, if_pos (hk.symm.trans hks)]
      · rw [if_neg hks, if_neg hks,
          if_neg (fun h2 => hks (hk.trans h2))]
    · rw [if_neg hk, groupOf_cons, groupOf_cons]
      by_cases hks : k = sha
      · rw [if_pos hks, if_pos hks,
          if_neg (fun h2 => hk (hks.trans h2.symm))]
      · rw [if_neg hks, if_neg hks]
        exact groupOf_consGroup sha sha2 f rest

/-- Helper for C4: a digest's group is exactly the scan-order list of the
non-skipped files whose hashing produced that digest. -/
theorem scan_groups (sha : List Char) :
    ∀ (files : List FileIn) recs gs, scan true files = .ok (recs, gs) →
      groupOf gs sha = files.filter
        (fun f => !isInSkipDir f.rel && decide (f.hashRes = HashRes.ok sha))
  | [] => by
    intro recs gs h
    simp only [scan, Except.ok.injEq, Prod.mk.injEq] at h
    rw [← h.2]
    simp [groupOf]
  | f :: fs => by
    intro recs gs hscan
    simp only [scan] at hscan
    by_cases hsk : isInSkipDir f.rel
    · rw [if_pos hsk] at hscan
      rw [List.filter_cons_of_neg (by simp [hsk])]
      exact scan_groups sha fs recs gs hscan
    · rw [if_neg hsk] at hscan
      cases hst : f.stat with
      | none => rw [hst] at hscan; simp at hscan
      | some st =>
        rw [hst] at hscan
        cases hrec : scan true fs with
        | error e => rw [hrec] at hscan; simp at hscan
        | ok pr =>
          obtain ⟨recs2, gs2⟩ := pr
          rw [hrec] at hscan
          simp only [eq_self_iff_true, if_true] at hscan
          cases hh : f.hashRes with
          | ok sha2 =>
            rw [hh] at hscan
            simp only [Except.ok.injEq, Prod.mk.injEq] at hscan
            obtain ⟨hrecs, hgs⟩ := hscan
            rw [← hgs, groupOf_consGroup,
              scan_groups sha fs recs2 gs2 hrec]
            by_cases hsha : sha2 = sha
            · rw [if_pos hsha,
                List.filter_cons_of_pos (by simp [hsk, hh, hsha])]
            · rw [if_neg hsha,
                List.filter_cons_of_neg (by simp [hsk, hh, hsha])]
          | err m =>
            rw [hh] at hscan
            simp only [Except.ok.injEq, Prod.mk.injEq] at hscan
            obtain ⟨hrecs, hgs⟩ := hscan
            rw [← hgs, scan_groups sha fs recs2 gs2 hrec,
              List.filter_cons_of_neg (by simp [hh])]

/-- A nonempty group is an entry of the map. -/
theorem groupOf_mem_of_ne_nil (gs : List (List Char × List FileIn))
    (sha : List Char) (h : groupOf gs sha ≠ []) :
    (sha, groupOf gs sha) ∈ gs := by
  unfold groupOf at h ⊢
  cases hf : gs.find? (fun g => g.1 = sha) with
  | none => rw [hf] at h; simp at h
  | some e =>
    have hmem := List.mem_of_find?_eq_some hf
    have hkey : e.1 = sha := by
      have h9 := List.find?_some hf
      exact of_decide_eq_true h9
    have he : (sha, e.2) = e := by
      cases e
      simp only at hkey
      rw [hkey]
    show (sha, e.2) ∈ gs
    rw [he]
    exact hmem

/-- With unique keys, every entry of the map is retrieved by its key. -/
theorem groupOf_of_mem :
    ∀ gs : List (List Char × List FileIn),
      (gs.map Prod.fst).Nodup →
      ∀ e ∈ gs, groupOf gs e.1 = e.2
  | [], _, e, he => by simp at he
  | (a, b) :: rest, hnd, e, he => by
    rcases List.mem_cons.mp he with he1 | he1
    · rw [he1, groupOf_cons]
      simp
    · have ha : a ∉ rest.map Prod.fst := by
        simp only [List.map_cons, List.nodup_cons] at hnd
        exact hnd.1
      have hne : ¬ a = e.1 :=
        fun h2 => ha (h2 ▸ List.mem_map_of_mem Prod.fst he1)
      rw [groupOf_cons, if_neg hne]
      exact groupOf_of_mem rest
        (by simp only [List.map_cons, List.nodup_cons] at hnd; exact hnd.2)
        e he1

/-- The keys of the map after a `setdefault` insertion. -/
theorem consGroup_keys (sha : List Char) (f : FileIn) :
    ∀ gs, (consGroup sha f gs).map Prod.fst =
      if sha ∈ gs.map Prod.fst then gs.map Prod.fst
      else gs.map Prod.fst ++ [sha]
  | [] => by simp [consGroup]
  | (k, g) :: rest => by
    simp only [consGroup]
    by_cases hk : k = sha
    · rw [if_pos hk]
      simp [hk]
    · rw [if_neg hk]
      simp only [List.map_cons]
      rw [consGroup_keys sha f rest]
      by_cases hm : sha ∈ rest.map Prod.fst
      · rw [if_pos hm, if_pos (by simp [hm])]
      · rw [if_neg hm, if_neg (by
          simp only [List.mem_cons]
          rintro (h2 | h2)
          · exact hk h2.symm
          · exact hm h2)]
        simp

/-- `setdefault` preserves key uniqueness. -/
theorem consGroup_keys_nodup (sha : List Char) (f : FileIn)
    (gs : List (List Char × List FileIn))
    (h : (gs.map Prod.fst).Nodup) :
    ((consGroup sha f gs).map Prod.fst).Nodup := by
  rw [consGroup_keys]
  by_cases hm : sha ∈ gs.map Prod.fst
  · rw [if_pos hm]
    exact h
  · rw [if_neg hm]
    rw [List.nodup_append]
    refine ⟨h, List.nodup_singleton sha, ?_⟩
    intro a ha hb
    simp only [List.mem_singleton] at hb
    exact hm (hb ▸ ha)

/-- Helper for C4: the scan builds a digest map with unique keys. -/
theorem scan_keys_nodup :
    ∀ (files : List FileIn) recs gs, scan true files = .ok (recs, gs) →
      (gs.map Prod.fst).Nodup
  | [] => by
    intro recs gs h
    simp only [scan, Except.ok.injEq, Prod.mk.injEq] at h
    rw [← h.2]
    simp
  | f :: fs => by
    intro recs gs hscan
    simp only [scan] at hscan
    by_cases hsk : isInSkipDir f.rel
    · rw [if_pos hsk] at hscan
      exact scan_keys_nodup fs recs gs hscan
    · rw [if_neg hsk] at hscan
      cases hst : f.stat with
      | none => rw [hst] at hscan; simp at hscan
      | some st =>
        rw [hst] at hscan
        cases hrec : scan true fs with
        | error e => rw [hrec] at hscan; simp at hscan
        | ok pr =>
          obtain ⟨recs2, gs2⟩ := pr
          rw [hrec] at hscan
          simp only [eq_self_iff_true, if_true] at hscan
          cases hh : f.hashRes with
          | ok sha2 =>
            rw [hh] at hscan
            simp only [Except.ok.injEq, Prod.mk.injEq] at hscan
            rw [← hscan.2]
            exact consGroup_keys_nodup sha2 f gs2
              (scan_keys_nodup fs recs2 gs2 hrec)
          | err m =>
            rw [hh] at hscan
            simp only [Except.ok.injEq, Prod.mk.injEq] at hscan
            rw [← hscan.2]
            exact scan_keys_nodup fs recs2 gs2 hrec

/-- Membership in the duplicate set: some group of size above one lists
the path in the tail of its descending sort. -/
theorem mem_dupPathsOf (r : List Char) :
    ∀ gs : List (List Char × List FileIn),
      r ∈ dupPathsOf gs ↔
        ∃ e ∈ gs, 1 < e.2.length ∧
          r ∈ (sortD mtGe e.2).tail.map FileIn.rel
  | [] => by simp [dupPathsOf]
  | x :: rest => by
    simp only [dupPathsOf, List.foldr_cons]
    have ih := mem_dupPathsOf r rest
    simp only [dupPathsOf] at ih
    by_cases h : 1 < x.2.length
    · rw [if_pos h]
      simp only [List.mem_append, ih, List.mem_cons]
      constructor
      · rintro (h1 | ⟨e, he, h2, h3⟩)
        · exact ⟨x, Or.inl rfl, h, h1⟩
        · exact ⟨e, Or.inr he, h2, h3⟩
      · rintro ⟨e, (he | he), h2, h3⟩
        · rw [he] at h3
          exact Or.inl h3
        · exact Or.inr ⟨e, he, h2, h3⟩
    · rw [if_neg h]
      rw [ih]
      constructor
      · rintro ⟨e, he, h2, h3⟩
        exact ⟨e, List.mem_cons_of_mem _ he, h2, h3⟩
      · rintro ⟨e, he, h2, h3⟩
        rcases List.mem_cons.mp he with he1 | he1
        · rw [he1] at h2
          exact absurd h2 h
        · exact ⟨e, he1, h2, h3⟩

end RepoReorg

/-- C4: with hashing enabled, every digest group of size above one (the
scan-order list of files sharing that digest) has as keeper the first
group member of greatest modification time: the group splits as
`pre ++ keeper :: suf` with every earlier member strictly older and every
later member no newer, the planner leaves any record bearing the keeper's
path exactly as it would without duplicate detection (subject to further
classification), and assigns the archive-duplicate action to every record
bearing another group member's path. -/
theorem c4_duplicate_keeper
    (files : List RepoReorg.FileIn) (recs : List RepoReorg.FileRecord)
    (gs : List (List Char × List RepoReorg.FileIn)) (sha : List Char)
    (hscan : RepoReorg.scan true files = .ok (recs, gs))
    (hnd : (files.map RepoReorg.FileIn.rel).Nodup)
    (hsize : 1 < (RepoReorg.groupOf gs sha).length) :
    RepoReorg.groupOf gs sha = files.filter
      (fun f => !RepoReorg.isInSkipDir f.rel &&
        decide (f.hashRes = RepoReorg.HashRes.ok sha)) ∧
    ∃ keeper pre suf,
      (sortD RepoReorg.mtGe (RepoReorg.groupOf gs sha)).head? = some keeper ∧
      RepoReorg.groupOf gs sha = pre ++ keeper :: suf ∧
      (∀ q ∈ pre, q.mtimeOf < keeper.mtimeOf) ∧
      (∀ q ∈ suf, q.mtimeOf ≤ keeper.mtimeOf) ∧
      (∀ rec : RepoReorg.FileRecord, rec.rel_path = keeper.rel →
        RepoReorg.planRecord true (RepoReorg.dupPathsOf gs) rec =
          RepoReorg.planRecord false [] rec) ∧
      (∀ q ∈ RepoReorg.groupOf gs sha, q.rel ≠ keeper.rel →
        ∀ rec : RepoReorg.FileRecord, rec.rel_path = q.rel →
          (RepoReorg.planRecord true (RepoReorg.dupPathsOf gs) rec).action =
            RepoReorg.Action.MOVE_TO_ARCHIVE_DUPLICATE) := by
  have hgrp := RepoReorg.scan_groups sha files recs gs hscan
  refine ⟨hgrp, ?_⟩
  have hne : RepoReorg.groupOf gs sha ≠ [] := by
    intro h0
    rw [h0] at hsize
    simp at hsize
  obtain ⟨k, hk⟩ : ∃ k, firstMaxD RepoReorg.mtGe (RepoReorg.groupOf gs sha) =
      some k := by
    cases hg : RepoReorg.groupOf gs sha with
    | nil => exact absurd hg hne
    | cons x xs =>
      simp only [firstMaxD]
      cases firstMaxD RepoReorg.mtGe xs
      · exact ⟨x, rfl⟩
      · exact ⟨_, rfl⟩
  have hhead : (sortD RepoReorg.mtGe (RepoReorg.groupOf gs sha)).head? =
      some k := by
    rw [sortD_head]
    exact hk
  have htot : ∀ a b : RepoReorg.FileIn,
      RepoReorg.mtGe a b = true ∨ RepoReorg.mtGe b a = true := by
    intro a b
    simp only [RepoReorg.mtGe, Nat.ble_eq]
    exact Nat.le_total b.mtimeOf a.mtimeOf
  have htrans : ∀ a b c : RepoReorg.FileIn, RepoReorg.mtGe a b = true →
      RepoReorg.mtGe b c = true → RepoReorg.mtGe a c = true := by
    intro a b c h1 h2
    simp only [RepoReorg.mtGe, Nat.ble_eq] at h1 h2 ⊢
    exact Nat.le_trans h2 h1
  obtain ⟨pre, suf, hsplit, hpre, hsuf⟩ :=
    firstMaxD_spec RepoReorg.mtGe htot htrans (RepoReorg.groupOf gs sha) k hk
  have hpre2 : ∀ q ∈ pre, q.mtimeOf < k.mtimeOf := by
    intro q hq
    have h1 := hpre q hq
    simp only [RepoReorg.mtGe, Nat.ble_eq] at h1
    omega
  have hsuf2 : ∀ q ∈ suf, q.mtimeOf ≤ k.mtimeOf := by
    intro q hq
    have h1 := hsuf q hq
    simpa [RepoReorg.mtGe, Nat.ble_eq] using h1
  have hkmem : k ∈ RepoReorg.groupOf gs sha := by
    rw [hsplit]
    exact List.mem_append_right _ (List.mem_cons_self _ _)
  have hgrpnd : ((RepoReorg.groupOf gs sha).map RepoReorg.FileIn.rel).Nodup := by
    rw [hgrp]
    exact ((List.filter_sublist files).map RepoReorg.FileIn.rel).nodup hnd
  obtain ⟨tl, htl⟩ : ∃ tl, sortD RepoReorg.mtGe (RepoReorg.groupOf gs sha) =
      k :: tl := by
    cases hs : sortD RepoReorg.mtGe (RepoReorg.groupOf gs sha) with
    | nil => rw [hs] at hhead; simp at hhead
    | cons a t =>
      rw [hs] at hhead
      simp only [List.head?_cons, Option.some.injEq] at hhead
      exact ⟨t, by rw [hhead]⟩
  have hsortnd : (((sortD RepoReorg.mtGe (RepoReorg.groupOf gs sha)).map
      RepoReorg.FileIn.rel)).Nodup :=
    ((sortD_perm RepoReorg.mtGe (RepoReorg.groupOf gs sha)).map
      RepoReorg.FileIn.rel).nodup_iff.mpr hgrpnd
  have hknotin : k.rel ∉ tl.map RepoReorg.FileIn.rel := by
    rw [htl] at hsortnd
    simp only [List.map_cons, List.nodup_cons] at hsortnd
    exact hsortnd.1
  have hinj : ∀ x ∈ files, ∀ y ∈ files, x.rel = y.rel → x = y :=
    List.inj_on_of_nodup_map hnd
  have hmemfacts : ∀ sha2 : List Char,
      ∀ q ∈ files.filter (fun f => !RepoReorg.isInSkipDir f.rel &&
        decide (f.hashRes = RepoReorg.HashRes.ok sha2)),
      q ∈ files ∧ q.hashRes = RepoReorg.HashRes.ok sha2 := by
    intro sha2 q hq
    have h1 := List.mem_of_mem_filter hq
    have h2 := List.of_mem_filter hq
    simp only [Bool.and_eq_true, decide_eq_true_eq] at h2
    exact ⟨h1, h2.2⟩
  have hkeeper_not : k.rel ∉ RepoReorg.dupPathsOf gs := by
    intro hmem
    obtain ⟨e, he, hlen, hrelmem⟩ :=
      (RepoReorg.mem_dupPathsOf k.rel gs).mp hmem
    have hkeys := RepoReorg.scan_keys_nodup files recs gs hscan
    have hge : RepoReorg.groupOf gs e.1 = e.2 :=
      RepoReorg.groupOf_of_mem gs hkeys e he
    have hge2 := RepoReorg.scan_groups e.1 files recs gs hscan
    obtain ⟨q, hq1, hq2⟩ := List.mem_map.mp hrelmem
    have hq3 : q ∈ sortD RepoReorg.mtGe e.2 := List.mem_of_mem_tail hq1
    have hq4 : q ∈ e.2 :=
      ((sortD_perm RepoReorg.mtGe e.2).mem_iff).mp hq3
    rw [← hge, hge2] at hq4
    obtain ⟨hq5, hq6⟩ := hmemfacts e.1 q hq4
    obtain ⟨hk5, hk6⟩ := hmemfacts sha k (hgrp ▸ hkmem)
    have hqk : q = k := hinj q hq5 k hk5 hq2
    subst hqk
    have hsha : e.1 = sha := by
      rw [hq6] at hk6
      injection hk6
    rw [← hge, hsha] at hq1
    rw [htl] at hq1
    exact hknotin (List.mem_map_of_mem RepoReorg.FileIn.rel hq1)
  have hentry : (sha, RepoReorg.groupOf gs sha) ∈ gs :=
    RepoReorg.groupOf_mem_of_ne_nil gs sha hne
  have hothers : ∀ q ∈ RepoReorg.groupOf gs sha, q.rel ≠ k.rel →
      q.rel ∈ RepoReorg.dupPathsOf gs := by
    intro q hq hqne
    apply (RepoReorg.mem_dupPathsOf q.rel gs).mpr
    refine ⟨(sha, RepoReorg.groupOf gs sha), hentry, hsize, ?_⟩
    have hq2 : q ∈ sortD RepoReorg.mtGe (RepoReorg.groupOf gs sha) :=
      ((sortD_perm RepoReorg.mtGe (RepoReorg.groupOf gs sha)).mem_iff).mpr hq
    rw [htl] at hq2
    rcases List.mem_cons.mp hq2 with h2 | h2
    · exact absurd (by rw [h2]) hqne
    · show q.rel ∈ (sortD RepoReorg.mtGe (RepoReorg.groupOf gs sha)).tail.map
        RepoReorg.FileIn.rel
      rw [htl]
      exact List.mem_map_of_mem RepoReorg.FileIn.rel h2
  refine ⟨k, pre, suf, hhead, hsplit, hpre2, hsuf2, ?_, ?_⟩
  · intro rec hrel
    simp only [RepoReorg.planRecord]
    rw [if_neg (fun h2 => hkeeper_not (hrel ▸ h2.2)),
      if_neg (fun h2 => by simpa using h2.1)]
  · intro q hq hne2 rec hrel
    simp only [RepoReorg.planRecord]
    rw [if_pos ⟨trivial, hrel ▸ hothers q hq hne2⟩]

namespace PolishLinks

/-- No string is lexicographically below itself. -/
theorem strLtB_irrefl : ∀ a : List Char, strLtB a a = false
  | [] => rfl
  | c :: t => by
    simp only [strLtB, if_pos rfl]
    exact strLtB_irrefl t

/-- Lexicographic comparison is transitive. -/
theorem strLtB_trans : ∀ a b c : List Char,
    strLtB a b = true → strLtB b c = true → strLtB a c = true
  | [], [], _, h1, _ => by simp [strLtB] at h1
  | [], _ :: _, [], _, h2 => by simp [strLtB] at h2
  | [], _ :: _, _ :: _, _, _ => rfl
  | _ :: _, [], _, h1, _ => by simp [strLtB] at h1
  | _ :: _, _ :: _, [], _, h2 => by simp [strLtB] at h2
  | a :: as, b :: bs, c :: cs, h1, h2 => by
    simp only [strLtB] at h1 h2 ⊢
    by_cases hab : a = b
    · subst hab
      rw [if_pos rfl] at h1
      by_cases hac : a = c
      · subst hac
        rw [if_pos rfl] at h2 ⊢
        exact strLtB_trans as bs cs h1 h2
      · rw [if_neg hac] at h2 ⊢
        exact h2
    · rw [if_neg hab] at h1
      have hab2 : a < b := of_decide_eq_true h1
      by_cases hbc : b = c
      · subst hbc
        rw [if_neg hab]
        exact h1
      · rw [if_neg hbc] at h2
        have hbc2 : b < c := of_decide_eq_true h2
        have hac2 : a < c := lt_trans hab2 hbc2
        rw [if_neg (fun h3 : a = c => by
          rw [h3] at hac2
          exact absurd hac2 (lt_irrefl c))]
        exact decide_eq_true hac2

/-- Lexicographic trichotomy. -/
theorem strLtB_trichot : ∀ a b : List Char,
    strLtB a b = true ∨ strLtB b a = true ∨ a = b
  | [], [] => Or.inr (Or.inr rfl)
  | [], _ :: _ => Or.inl rfl
  | _ :: _, [] => Or.inr (Or.inl rfl)
  | a :: as, b :: bs => by
    by_cases hab : a = b
    · subst hab
      simp only [strLtB, if_pos rfl]
      rcases strLtB_trichot as bs with h | h | h
      · exact Or.inl h
      · exact Or.inr (Or.inl h)
      · exact Or.inr (Or.inr (by rw [h]))
    · simp only [strLtB, if_neg hab, if_neg (fun h : b = a => hab h.symm)]
      rcases lt_or_gt_of_ne (show a ≠ b from hab) with h | h
      · exact Or.inl (decide_eq_true h)
      · exact Or.inr (Or.inl (decide_eq_true h))

/-- Unfolded reading of the score comparison. -/
theorem scoreGe_iff (curDir : APath) (p q : APath) :
    scoreGe curDir p q = true ↔
      (sameDirB curDir p = true ∧ sameDirB curDir q = false) ∨
      (sameDirB curDir p = sameDirB curDir q ∧
        depthOf curDir p < depthOf curDir q) ∨
      (sameDirB curDir p = sameDirB curDir q ∧
        depthOf curDir p = depthOf curDir q ∧
        strLtB (lowerStr (renderP p)) (lowerStr (renderP q)) = false) := by
  simp only [scoreGe]
  by_cases h1 : sameDirB curDir p = sameDirB curDir q
  · rw [if_neg (fun h2 => h2 h1)]
    by_cases h2 : depthOf curDir p = depthOf curDir q
    · rw [if_neg (fun h3 => h3 h2)]
      constructor
      · intro h3
        exact Or.inr (Or.inr ⟨h1, h2, by simpa using h3⟩)
      · rintro (⟨ha, hb⟩ | ⟨-, hlt⟩ | ⟨-, -, hf⟩)
        · rw [ha, hb] at h1; exact absurd h1 (by simp)
        · exact absurd h2 (Nat.ne_of_lt hlt)
        · simpa using hf
    · rw [if_pos h2]
      constructor
      · intro h3
        exact Or.inr (Or.inl ⟨h1, of_decide_eq_true h3⟩)
      · rintro (⟨ha, hb⟩ | ⟨-, hlt⟩ | ⟨-, heq, -⟩)
        · rw [ha, hb] at h1; exact absurd h1 (by simp)
        · exact decide_eq_true hlt
        · exact absurd heq h2
  · rw [if_pos h1]
    constructor
    · intro h3
      cases hp : sameDirB curDir p <;> cases hq : sameDirB curDir q <;>
        rw [hp, hq] at h3 h1 <;> simp_all
    · rintro (⟨ha, hb⟩ | ⟨heq, -⟩ | ⟨heq, -, -⟩)
      · rw [ha, hb]; rfl
      · exact absurd heq h1
      · exact absurd heq h1

/-- The score comparison is reflexive. -/
theorem scoreGe_refl (curDir : APath) (p : APath) :
    scoreGe curDir p p = true := by
  rw [scoreGe_iff]
  exact Or.inr (Or.inr ⟨rfl, rfl, strLtB_irrefl _⟩)

/-- A strict lexicographic comparison forbids the reverse one. -/
theorem strLtB_asymm (a b : List Char) (h : strLtB a b = true) :
    strLtB b a = false := by
  cases h5 : strLtB b a
  · rfl
  · have h6 := strLtB_trans a b a h h5
    rw [strLtB_irrefl] at h6
    exact absurd h6 (by simp)

/-- The score comparison is total. -/
theorem scoreGe_total (curDir : APath) (p q : APath) :
    scoreGe curDir p q = true ∨ scoreGe curDir q p = true := by
  rw [scoreGe_iff, scoreGe_iff]
  by_cases h1 : sameDirB curDir p = sameDirB curDir q
  · by_cases h2 : depthOf curDir p = depthOf curDir q
    · rcases strLtB_trichot (lowerStr (renderP p)) (lowerStr (renderP q))
        with h3 | h3 | h3
      · exact Or.inr (Or.inr (Or.inr ⟨h1.symm, h2.symm, strLtB_asymm _ _ h3⟩))
      · exact Or.inl (Or.inr (Or.inr ⟨h1, h2, strLtB_asymm _ _ h3⟩))
      · refine Or.inl (Or.inr (Or.inr ⟨h1, h2, ?_⟩))
        rw [h3]
        exact strLtB_irrefl _
    · rcases Nat.lt_or_ge (depthOf curDir p) (depthOf curDir q) with h3 | h3
      · exact Or.inl (Or.inr (Or.inl ⟨h1, h3⟩))
      · exact Or.inr (Or.inr (Or.inl ⟨h1.symm,
          Nat.lt_of_le_of_ne h3 (fun h4 => h2 h4.symm)⟩))
  · cases hp : sameDirB curDir p <;> cases hq : sameDirB curDir q
    · rw [hp, hq] at h1; exact absurd rfl h1
    · exact Or.inr (Or.inl ⟨rfl, rfl⟩)
    · exact Or.inl (Or.inl ⟨rfl, rfl⟩)
    · rw [hp, hq] at h1; exact absurd rfl h1

/-- From two non-strict string comparisons, a strict one in the other
direction is impossible. -/
theorem strLtB_false_trans (a b c : List Char)
    (h1 : strLtB a b = false) (h2 : strLtB b c = false) :
    strLtB a c = false := by
  cases h4 : strLtB a c
  · rfl
  · exfalso
    rcases strLtB_trichot b c with h5 | h5 | h5
    · rw [h5] at h2; exact absurd h2 (by simp)
    · have h6 := strLtB_trans _ _ _ h4 h5
      rw [h6] at h1
      exact absurd h1 (by simp)
    · subst h5
      rw [h4] at h1
      exact absurd h1 (by simp)

/-- The score comparison is transitive. -/
theorem scoreGe_trans (curDir : APath) (p q r : APath)
    (h1 : scoreGe curDir p q = true) (h2 : scoreGe curDir q r = true) :
    scoreGe curDir p r = true := by
  rw [scoreGe_iff] at h1 h2 ⊢
  rcases h1 with ⟨ha, hb⟩ | ⟨ha, hb⟩ | ⟨ha, hb, hc⟩ <;>
    rcases h2 with ⟨hd, he⟩ | ⟨hd, he⟩ | ⟨hd, he, hf⟩
  · rw [hb] at hd; exact absurd hd (by simp)
  · exact Or.inl ⟨ha, hd.symm.trans hb⟩
  · exact Or.inl ⟨ha, hd.symm.trans hb⟩
  · exact Or.inl ⟨ha.trans hd, he⟩
  · exact Or.inr (Or.inl ⟨ha.trans hd, Nat.lt_trans hb he⟩)
  · exact Or.inr (Or.inl ⟨ha.trans hd, by rw [← he]; exact hb⟩)
  · exact Or.inl ⟨ha.trans hd, he⟩
  · exact Or.inr (Or.inl ⟨ha.trans hd, by rw [hb]; exact he⟩)
  · exact Or.inr (Or.inr ⟨ha.trans hd, hb.trans he,
      strLtB_false_trans _ _ _ hc hf⟩)

end PolishLinks

/-- C7: the claim states the engine maximizes the tuple (same-directory,
negative depth, raw absolute path string).  The code's final tie-break is
the lower-cased path string: with candidates in sibling directories `B`
and `a` (same depth, no same-directory bonus), the code selects the `B`
candidate (lower-cased `b` sorts above `a`) while the spec's raw-string
tuple selects the `a` candidate (`a` has a higher code point than `B`), so
the claim's selection rule disagrees with the code at this input. -/
theorem c7_counterexample :
    PolishLinks.chooseBestCandidate
        [strL "root", strL "Build_plan", strL "m3", strL "page.html"]
        [[strL "root", strL "Build_plan", strL "B", strL "overview.html"],
         [strL "root", strL "Build_plan", strL "a", strL "overview.html"]] =
      [strL "root", strL "Build_plan", strL "B", strL "overview.html"] ∧
    PolishLinks.specChooseBestCandidate
        [strL "root", strL "Build_plan", strL "m3", strL "page.html"]
        [[strL "root", strL "Build_plan", strL "B", strL "overview.html"],
         [strL "root", strL "Build_plan", strL "a", strL "overview.html"]] =
      [strL "root", strL "Build_plan", strL "a", strL "overview.html"] ∧
    PolishLinks.chooseBestCandidate
        [strL "root", strL "Build_plan", strL "m3", strL "page.html"]
        [[strL "root", strL "Build_plan", strL "B", strL "overview.html"],
         [strL "root", strL "Build_plan", strL "a", strL "overview.html"]] ≠
      PolishLinks.specChooseBestCandidate
        [strL "root", strL "Build_plan", strL "m3", strL "page.html"]
        [[strL "root", strL "Build_plan", strL "B", strL "overview.html"],
         [strL "root", strL "Build_plan", strL "a", strL "overview.html"]] := by
  refine ⟨by decide, by decide, ?_⟩
  decide

/-- C7 (amended): for every nonempty candidate list the engine returns the
first candidate maximizing the score tuple (same-directory bonus, negative
depth of the relative route, lower-cased absolute path string as final
tie-break): the chosen candidate scores at least as high as every
candidate and strictly higher than every candidate listed before it; in
particular, for a broken reference from `Build_plan/m3/page.html` with
candidates `Build_plan/m3/overview.html` and `Build_plan/m7/overview.html`
it suggests the former. -/
theorem c7_amended :
    (∀ (doc : PolishLinks.APath) (cands : List PolishLinks.APath),
      cands ≠ [] →
      ∃ best pre suf,
        PolishLinks.chooseBestCandidate doc cands = best ∧
        cands = pre ++ best :: suf ∧
        (∀ q ∈ cands, PolishLinks.scoreGe doc.dropLast best q = true) ∧
        (∀ q ∈ pre, ¬ PolishLinks.scoreGe doc.dropLast q best = true)) ∧
    PolishLinks.chooseBestCandidate
        [strL "root", strL "Build_plan", strL "m3", strL "page.html"]
        [[strL "root", strL "Build_plan", strL "m3", strL "overview.html"],
         [strL "root", strL "Build_plan", strL "m7", strL "overview.html"]] =
      [strL "root", strL "Build_plan", strL "m3", strL "overview.html"] := by
  constructor
  swap
  · decide
  intro doc cands hne
  obtain ⟨k, hk⟩ : ∃ k, firstMaxD (PolishLinks.scoreGe doc.dropLast) cands =
      some k := by
    cases hg : cands with
    | nil => exact absurd hg hne
    | cons x xs =>
      simp only [firstMaxD]
      cases firstMaxD (PolishLinks.scoreGe doc.dropLast) xs
      · exact ⟨x, rfl⟩
      · exact ⟨_, rfl⟩
  have hhead : (sortD (PolishLinks.scoreGe doc.dropLast) cands).head? =
      some k := by
    rw [sortD_head]
    exact hk
  obtain ⟨pre, suf, hsplit, hpre, hsuf⟩ :=
    firstMaxD_spec (PolishLinks.scoreGe doc.dropLast)
      (PolishLinks.scoreGe_total doc.dropLast)
      (PolishLinks.scoreGe_trans doc.dropLast) cands k hk
  refine ⟨k, pre, suf, ?_, hsplit, ?_, hpre⟩
  · simp only [PolishLinks.chooseBestCandidate]
    cases hs : sortD (PolishLinks.scoreGe doc.dropLast) cands with
    | nil => rw [hs] at hhead; simp at hhead
    | cons a t =>
      rw [hs] at hhead
      simp only [List.head?_cons, Option.some.injEq] at hhead
      rw [List.headD_cons, hhead]
  · intro q hq
    rw [hsplit] at hq
    rcases List.mem_append.mp hq with hq1 | hq2
    · exact Or.resolve_left (PolishLinks.scoreGe_total doc.dropLast q k)
        (hpre q hq1)
    · rcases List.mem_cons.mp hq2 with hq3 | hq3
      · rw [hq3]
        exact PolishLinks.scoreGe_refl doc.dropLast k
      · exact hsuf q hq3

/-- Witness for C7 (amended) at the two-candidate example from the spec. -/
theorem c7_amended_witness :
    ∃ best pre suf,
      PolishLinks.chooseBestCandidate
          [strL "root", strL "Build_plan", strL "m3", strL "page.html"]
          [[strL "root", strL "Build_plan", strL "m3", strL "overview.html"],
           [strL "root", strL "Build_plan", strL "m7", strL "overview.html"]] =
        best ∧
      [[strL "root", strL "Build_plan", strL "m3", strL "overview.html"],
       [strL "root", strL "Build_plan", strL "m7", strL "overview.html"]] =
        pre ++ best :: suf ∧
      (∀ q ∈ [[strL "root", strL "Build_plan", strL "m3",
          strL "overview.html"],
         [strL "root", strL "Build_plan", strL "m7", strL "overview.html"]],
        PolishLinks.scoreGe
          ([strL "root", strL "Build_plan", strL "m3",
            strL "page.html"] : PolishLinks.APath).dropLast best q = true) ∧
      (∀ q ∈ pre, ¬ PolishLinks.scoreGe
          ([strL "root", strL "Build_plan", strL "m3",
            strL "page.html"] : PolishLinks.APath).dropLast q best = true) :=
  c7_amended.1
    [strL "root", strL "Build_plan", strL "m3", strL "page.html"]
    [[strL "root", strL "Build_plan", strL "m3", strL "overview.html"],
     [strL "root", strL "Build_plan", strL "m7", strL "overview.html"]]
    (by decide)

/-- Witness for C4: two files `A` (mtime 1) and `B` (mtime 2) share a
digest; the planner keeps `B` (newest) subject to further classification
and marks `A` as a duplicate. -/
theorem c4_duplicate_keeper_witness :
    RepoReorg.groupOf
      [(strL "h1",
        [{ rel := strL "A.txt", stat := some (1, 1),
           hashRes := .ok (strL "h1") },
         { rel := strL "B.txt", stat := some (1, 2),
           hashRes := .ok (strL "h1") }])] (strL "h1") =
      [{ rel := strL "A.txt", stat := some (1, 1),
         hashRes := .ok (strL "h1") },
       { rel := strL "B.txt", stat := some (1, 2),
         hashRes := .ok (strL "h1") }].filter
        (fun f => !RepoReorg.isInSkipDir f.rel &&
          decide (f.hashRes = RepoReorg.HashRes.ok (strL "h1"))) ∧
    ∃ keeper pre suf,
      (sortD RepoReorg.mtGe (RepoReorg.groupOf
        [(strL "h1",
          [{ rel := strL "A.txt", stat := some (1, 1),
             hashRes := .ok (strL "h1") },
           { rel := strL "B.txt", stat := some (1, 2),
             hashRes := .ok (strL "h1") }])] (strL "h1"))).head? =
        some keeper ∧
      RepoReorg.groupOf
        [(strL "h1",
          [{ rel := strL "A.txt", stat := some (1, 1),
             hashRes := .ok (strL "h1") },
           { rel := strL "B.txt", stat := some (1, 2),
             hashRes := .ok (strL "h1") }])] (strL "h1") =
        pre ++ keeper :: suf ∧
      (∀ q ∈ pre, q.mtimeOf < keeper.mtimeOf) ∧
      (∀ q ∈ suf, q.mtimeOf ≤ keeper.mtimeOf) ∧
      (∀ rec : RepoReorg.FileRecord, rec.rel_path = keeper.rel →
        RepoReorg.planRecord true (RepoReorg.dupPathsOf
          [(strL "h1",
            [{ rel := strL "A.txt", stat := some (1, 1),
               hashRes := .ok (strL "h1") },
             { rel := strL "B.txt", stat := some (1, 2),
               hashRes := .ok (strL "h1") }])]) rec =
          RepoReorg.planRecord false [] rec) ∧
      (∀ q ∈ RepoReorg.groupOf
          [(strL "h1",
            [{ rel := strL "A.txt", stat := some (1, 1),
               hashRes := .ok (strL "h1") },
             { rel := strL "B.txt", stat := some (1, 2),
               hashRes := .ok (strL "h1") }])] (strL "h1"),
        q.rel ≠ keeper.rel →
        ∀ rec : RepoReorg.FileRecord, rec.rel_path = q.rel →
          (RepoReorg.planRecord true (RepoReorg.dupPathsOf
            [(strL "h1",
              [{ rel := strL "A.txt", stat := some (1, 1),
                 hashRes := .ok (strL "h1") },
               { rel := strL "B.txt", stat := some (1, 2),
                 hashRes := .ok (strL "h1") }])]) rec).action =
            RepoReorg.Action.MOVE_TO_ARCHIVE_DUPLICATE) :=
  c4_duplicate_keeper
    [{ rel := strL "A.txt", stat := some (1, 1),
       hashRes := .ok (strL "h1") },
     { rel := strL "B.txt", stat := some (1, 2),
       hashRes := .ok (strL "h1") }]
    [{ rel_path := strL "A.txt", size := 1, mtime := 1,
       sha256 := some (strL "h1") },
     { rel_path := strL "B.txt", size := 1, mtime := 2,
       sha256 := some (strL "h1") }]
    [(strL "h1",
      [{ rel := strL "A.txt", stat := some (1, 1),
         hashRes := .ok (strL "h1") },
       { rel := strL "B.txt", stat := some (1, 2),
         hashRes := .ok (strL "h1") }])]
    (strL "h1") (by decide) (by decide) (by decide)

namespace PolishLinks

/-- Helper for C10: one match contributes a FIXED issue only together with
a BROKEN issue that agrees with it in every field but the status. -/
theorem processMatch_fix_broken (fsSet : List APath)
    (idx : List (Seg × List APath)) (repo f : APath) (m : AttrMatch) :
    (∀ i ∈ (processMatch fsSet idx repo f m).2.1,
      { i with status := Status.BROKEN } ∈ (processMatch fsSet idx repo f m).1) ∧
    (processMatch fsSet idx repo f m).2.1.length ≤
      (processMatch fsSet idx repo f m).1.length := by
  simp only [processMatch]
  repeat' split
  all_goals simp

/-- Helper for C10: the per-document accumulation preserves the
correspondence. -/
theorem processDoc_fix_broken (fsSet : List APath)
    (idx : List (Seg × List APath)) (repo f : APath) :
    ∀ ms : List AttrMatch,
      (∀ i ∈ (processDoc fsSet idx repo f ms).2.1,
        { i with status := Status.BROKEN } ∈ (processDoc fsSet idx repo f ms).1) ∧
      (processDoc fsSet idx repo f ms).2.1.length ≤
        (processDoc fsSet idx repo f ms).1.length
  | [] => by simp [processDoc]
  | m :: rest => by
    have h1 := processMatch_fix_broken fsSet idx repo f m
    have h2 := processDoc_fix_broken fsSet idx repo f rest
    simp only [processDoc]
    constructor
    · intro i hi
      rcases List.mem_append.mp hi with hl | hr
      · exact List.mem_append_left _ (h1.1 i hl)
      · exact List.mem_append_right _ (h2.1 i hr)
    · simp only [List.length_append]
      exact Nat.add_le_add h1.2 h2.2

/-- Helper for C10: the whole-run accumulation preserves the
correspondence. -/
theorem runEngine_fix_broken (fsSet : List APath) (bp repo : APath) :
    ∀ docs : List (APath × List AttrMatch),
      (∀ i ∈ (runEngine fsSet bp repo docs).2.1,
        { i with status := Status.BROKEN } ∈ (runEngine fsSet bp repo docs).1) ∧
      (runEngine fsSet bp repo docs).2.1.length ≤
        (runEngine fsSet bp repo docs).1.length
  | [] => by simp [runEngine]
  | (f, ms) :: rest => by
    have h1 := processDoc_fix_broken fsSet
      (buildIndex (fsSet.filter (fun p => bp.isPrefixOf p))) repo f ms
    have h2 := runEngine_fix_broken fsSet bp repo rest
    simp only [runEngine]
    constructor
    · intro i hi
      rcases List.mem_append.mp hi with hl | hr
      · exact List.mem_append_left _ (h1.1 i hl)
      · exact List.mem_append_right _ (h2.1 i hr)
    · simp only [List.length_append]
      exact Nat.add_le_add h1.2 h2.2

end PolishLinks

/-- C10: in every run of the link remediation engine, each issue recorded
with status FIXED has a corresponding BROKEN issue agreeing with it in
document, attribute, original value, containing directory, and suggested
value; hence every repaired link appears in both reports and the broken
list is at least as long as the fixed list. -/
theorem c10_fixed_has_broken (fsSet : List PolishLinks.APath)
    (bp repo : PolishLinks.APath)
    (docs : List (PolishLinks.APath × List PolishLinks.AttrMatch)) :
    (∀ i ∈ (PolishLinks.runEngine fsSet bp repo docs).2.1,
      { i with status := PolishLinks.Status.BROKEN } ∈
        (PolishLinks.runEngine fsSet bp repo docs).1) ∧
    (PolishLinks.runEngine fsSet bp repo docs).2.1.length ≤
      (PolishLinks.runEngine fsSet bp repo docs).1.length :=
  PolishLinks.runEngine_fix_broken fsSet bp repo docs

/-- Witness for C10 at a concrete run that repairs one link: the FIXED
issue's BROKEN twin is in the broken report. -/
theorem c10_fixed_has_broken_witness :
    ({ file := [strL "Build_plan", strL "m3", strL "page.html"],
       attr := strL "href", original := strL "missing/overview.html",
       resolved_from := [strL "Build_plan", strL "m3"],
       status := PolishLinks.Status.BROKEN,
       suggestion := strL "overview.html" } : PolishLinks.LinkIssue) ∈
      (PolishLinks.runEngine
        [[strL "root", strL "Build_plan", strL "m3", strL "overview.html"],
         [strL "root", strL "Build_plan", strL "m3", strL "page.html"]]
        [strL "root", strL "Build_plan"] [strL "root"]
        [([strL "root", strL "Build_plan", strL "m3", strL "page.html"],
          [{ attr := strL "href", val := strL "missing/overview.html",
             startPos := 15, endPos := 37 }])]).1 :=
  (c10_fixed_has_broken
    [[strL "root", strL "Build_plan", strL "m3", strL "overview.html"],
     [strL "root", strL "Build_plan", strL "m3", strL "page.html"]]
    [strL "root", strL "Build_plan"] [strL "root"]
    [([strL "root", strL "Build_plan", strL "m3", strL "page.html"],
      [{ attr := strL "href", val := strL "missing/overview.html",
         startPos := 15, endPos := 37 }])]).1
    { file := [strL "Build_plan", strL "m3", strL "page.html"],
      attr := strL "href", original := strL "missing/overview.html",
      resolved_from := [strL "Build_plan", strL "m3"],
      status := PolishLinks.Status.FIXED,
      suggestion := strL "overview.html" }
    (by decide)

-- String toolkit used to settle C2 (idempotence of the classifier across
-- an applied run).

/-- A mismatch within the overlap kills the prefix test across an
append. -/
theorem prefixB_append_false (n : List Char) :
    ∀ (s m : List Char), compatB n s = false → prefixB n (s ++ m) = false
  | [], m, h => by simp [compatB, prefixB] at h
  | b :: s2, m, h => by
    cases n with
    | nil => simp [compatB, prefixB] at h
    | cons a n2 =>
      simp only [compatB, List.take_succ_cons, prefixB] at h
      simp only [List.cons_append, prefixB]
      by_cases hab : a = b
      · rw [if_pos hab] at h ⊢
        exact prefixB_append_false n2 s2 m h
      · rw [if_neg hab]

/-- A successful prefix test extends across an append. -/
theorem prefixB_append_true (n : List Char) :
    ∀ (s m : List Char), prefixB n s = true → prefixB n (s ++ m) = true := by
  induction n with
  | nil => intro s m _; rfl
  | cons a n2 ih =>
    intro s m h
    cases s with
    | nil => simp [prefixB] at h
    | cons b s2 =>
      simp only [prefixB] at h
      simp only [List.cons_append, prefixB]
      by_cases hab : a = b
      · rw [if_pos hab] at h ⊢
        exact ih s2 m h
      · rw [if_neg hab] at h
        exact absurd h (by simp)

/-- The empty needle is contained in everything. -/
theorem containsStr_nil_left : ∀ l : List Char, containsStr [] l = true
  | [] => rfl
  | _ :: t => by simp [containsStr, prefixB, containsStr_nil_left t]

/-- When no occurrence of the needle can start inside `pre`, the substring
test over `pre ++ m` is the substring test over `m`. -/
theorem containsStr_append_eq (n : List Char) :
    ∀ (pre m : List Char), noStartB n pre = true →
      containsStr n (pre ++ m) = containsStr n m
  | [], m, _ => by rw [List.nil_append]
  | c :: pre2, m, h => by
    simp only [noStartB, Bool.and_eq_true, Bool.not_eq_true'] at h
    have hpf := prefixB_append_false n (c :: pre2) m h.1
    have hrest := containsStr_append_eq n pre2 m h.2
    simp only [List.cons_append] at hpf
    simp only [List.cons_append, containsStr, List.append_eq]
    rw [hpf, hrest]
    rfl

/-- A substring of a prefix part survives the append. -/
theorem containsStr_append_left (n : List Char) :
    ∀ (pre m : List Char), containsStr n pre = true →
      containsStr n (pre ++ m) = true
  | [], m, h => by
    cases n with
    | nil => exact containsStr_nil_left m
    | cons a n2 => simp [containsStr, prefixB] at h
  | c :: pre2, m, h => by
    simp only [containsStr] at h
    rcases Bool.or_eq_true_iff.mp h with h1 | h1
    · have hpf := prefixB_append_true n (c :: pre2) m h1
      simp only [List.cons_append] at hpf
      simp only [List.cons_append, containsStr, List.append_eq]
      rw [hpf]
      rfl
    · have hrest := containsStr_append_left n pre2 m h1
      simp only [List.cons_append, containsStr, List.append_eq]
      rw [hrest]
      simp

/-- A substring of the right part survives the append. -/
theorem containsStr_append_right (n : List Char) (s : List Char) :
    ∀ u : List Char, containsStr n s = true → containsStr n (u ++ s) = true
  | [], h => by rwa [List.nil_append]
  | c :: u2, h => by
    have hrest := containsStr_append_right n s u2 h
    simp only [List.cons_append, containsStr, List.append_eq]
    rw [hrest]
    simp

/-- Substring tests transfer along the suffix relation. -/
theorem containsStr_suffix (n s t : List Char) (hs : s <:+ t)
    (hc : containsStr n s = true) : containsStr n t = true := by
  obtain ⟨u, hu⟩ := hs
  rw [← hu]
  exact containsStr_append_right n s u hc

/-- Lower-casing distributes over append. -/
theorem lowerStr_append (a b : List Char) :
    lowerStr (a ++ b) = lowerStr a ++ lowerStr b :=
  List.map_append asciiLower a b

/-- `takeWhile` passes a block of satisfying elements. -/
theorem takeWhile_append_all {p : Char → Bool} :
    ∀ (a b : List Char), (∀ x ∈ a, p x = true) →
      (a ++ b).takeWhile p = a ++ b.takeWhile p
  | [], b, _ => by simp
  | x :: a2, b, h => by
    simp only [List.cons_append, List.takeWhile_cons,
      h x (List.mem_cons_self x a2), if_true]
    rw [takeWhile_append_all a2 b (fun y hy => h y (List.mem_cons_of_mem x hy))]

/-- The base name of `a ++ "/" ++ name` is `name` when the name has no
slash. -/
theorem lastSeg_append_slash (a name : List Char)
    (h : ∀ c ∈ name, ¬ c = '/') : lastSeg (a ++ '/' :: name) = name := by
  unfold lastSeg
  rw [List.reverse_append, List.reverse_cons, List.append_assoc,
    takeWhile_append_all name.reverse _
      (fun c hc => by
        simp only [decide_eq_true_eq]
        exact h c (List.mem_reverse.mp hc))]
  simp [List.takeWhile_cons]

/-- A base name contains no slash. -/
theorem noSlash_lastSeg (s : List Char) : ∀ c ∈ lastSeg s, ¬ c = '/' := by
  intro c hc
  unfold lastSeg at hc
  rw [List.mem_reverse] at hc
  have h2 := List.mem_takeWhile_imp hc
  simpa using h2

/-- The base name is a suffix of the path. -/
theorem lastSeg_suffix (s : List Char) : lastSeg s <:+ s := by
  have h1 : (s.reverse.takeWhile (fun c => decide (c ≠ '/'))) <+: s.reverse :=
    List.takeWhile_prefix _
  have h2 := List.reverse_suffix.mpr h1
  rw [List.reverse_reverse] at h2
  exact h2

/-- Substring tests on the lower-cased path transfer to the lower-cased
base name (contrapositive form). -/
theorem containsStr_lower_lastSeg_false (k rel : List Char)
    (h : containsStr k (lowerStr rel) = false) :
    containsStr k (lowerStr (lastSeg rel)) = false := by
  cases hc : containsStr k (lowerStr (lastSeg rel))
  · rfl
  · exfalso
    have hsuf : lowerStr (lastSeg rel) <:+ lowerStr rel :=
      (lastSeg_suffix rel).map asciiLower
    have h3 := containsStr_suffix k _ _ hsuf hc
    rw [h3] at h
    exact absurd h (by simp)

/-- Substring tests on the lower-cased base name transfer up to the
lower-cased path. -/
theorem containsStr_lower_lastSeg_true (k rel : List Char)
    (h : containsStr k (lowerStr (lastSeg rel)) = true) :
    containsStr k (lowerStr rel) = true :=
  containsStr_suffix k _ _ ((lastSeg_suffix rel).map asciiLower) h

/-- A keyword hit beyond a blocking prefix forces a hit on the original
path. -/
theorem any_up {α : Type} (f : α → List Char) (ks : List α)
    (pre rel : List Char)
    (hstart : ∀ k ∈ ks, noStartB (f k) pre = true)
    (h : ks.any (fun k => containsStr (f k) (pre ++ lowerStr (lastSeg rel))) =
      true) :
    ks.any (fun k => containsStr (f k) (lowerStr rel)) = true := by
  obtain ⟨k, hk, hck⟩ := List.any_eq_true.mp h
  rw [containsStr_append_eq (f k) pre _ (hstart k hk)] at hck
  exact List.any_eq_true.mpr ⟨k, hk, containsStr_lower_lastSeg_true (f k) rel hck⟩

/-- No keyword hit on the original path, none beyond a blocking prefix. -/
theorem any_down {α : Type} (f : α → List Char) (ks : List α)
    (pre rel : List Char)
    (hstart : ∀ k ∈ ks, noStartB (f k) pre = true)
    (h : ¬ ks.any (fun k => containsStr (f k) (lowerStr rel)) = true) :
    ¬ ks.any (fun k => containsStr (f k) (pre ++ lowerStr (lastSeg rel))) =
      true :=
  fun hc => h (any_up f ks pre rel hstart hc)

/-- A keyword contained in the prefix makes the test succeed. -/
theorem any_pre {α : Type} (f : α → List Char) (ks : List α) (k0 : α)
    (hk0 : k0 ∈ ks) (pre m : List Char) (h : containsStr (f k0) pre = true) :
    ks.any (fun k => containsStr (f k) (pre ++ m)) = true :=
  List.any_eq_true.mpr ⟨k0, hk0, containsStr_append_left (f k0) pre m h⟩

/-- An extension drawn from one concrete list differs from a target
checked against the whole list. -/
theorem ext_ne_of_mem {e target : List Char} {exts : List (List Char)}
    (he : e ∈ exts)
    (hall : exts.all (fun x => decide (¬ x = target)) = true) :
    ¬ e = target := by
  have h2 := List.all_eq_true.mp hall e he
  simpa using h2

/-- An extension drawn from one concrete list avoids another concrete
list. -/
theorem ext_not_mem_of_mem {e : List Char} {exts other : List (List Char)}
    (he : e ∈ exts)
    (hall : exts.all (fun x => decide (¬ x ∈ other)) = true) :
    ¬ e ∈ other := by
  have h2 := List.all_eq_true.mp hall e he
  simpa using h2

/-- The base name of a slash-terminated prefix followed by a base name. -/
theorem lastSeg_prefix_append (a rel : List Char) :
    lastSeg ((a ++ ['/']) ++ lastSeg rel) = lastSeg rel := by
  rw [List.append_assoc]
  have h : ['/'] ++ lastSeg rel = '/' :: lastSeg rel := rfl
  rw [h]
  exact lastSeg_append_slash a _ (noSlash_lastSeg rel)

namespace RepoReorg

/-- Re-plan of a canonical entrypoint relocated into `Build_plan/`. -/
theorem replan_canonical (rel : List Char)
    (h1 : lastSeg rel ∈ CANONICAL_ROOT_FILES ∨
      lowerStr (lastSeg rel) ∈ CANONICAL_ROOT_FILES) :
    (chooseDestination (strL "Build_plan/" ++ lastSeg rel)
      (lastSeg (strL "Build_plan/" ++ lastSeg rel))).1 =
      strL "Build_plan/" ++ lastSeg rel := by
  have hlast : lastSeg (strL "Build_plan/" ++ lastSeg rel) = lastSeg rel := by
    rw [show strL "Build_plan/" ++ lastSeg rel =
        (strL "Build_plan" ++ ['/']) ++ lastSeg rel from by
      rw [show strL "Build_plan/" = strL "Build_plan" ++ ['/'] from by decide]]
    exact lastSeg_prefix_append _ rel
  rw [hlast]
  simp only [chooseDestination]
  rw [if_pos h1]

/-- Re-plan of a build-plan HTML file relocated into `Build_plan/`. -/
theorem replan_buildplan (rel : List Char)
    (h1 : ¬(lastSeg rel ∈ CANONICAL_ROOT_FILES ∨
      lowerStr (lastSeg rel) ∈ CANONICAL_ROOT_FILES)) :
    (chooseDestination (strL "Build_plan/" ++ lastSeg rel)
      (lastSeg (strL "Build_plan/" ++ lastSeg rel))).1 =
      strL "Build_plan/" ++ lastSeg rel := by
  have hlast : lastSeg (strL "Build_plan/" ++ lastSeg rel) = lastSeg rel := by
    rw [show strL "Build_plan/" ++ lastSeg rel =
        (strL "Build_plan" ++ ['/']) ++ lastSeg rel from by
      rw [show strL "Build_plan/" = strL "Build_plan" ++ ['/'] from by decide]]
    exact lastSeg_prefix_append _ rel
  have hlow : lowerStr (strL "Build_plan/" ++ lastSeg rel) =
      strL "build_plan/" ++ lowerStr (lastSeg rel) := by
    rw [lowerStr_append,
      show lowerStr (strL "Build_plan/") = strL "build_plan/" from by decide]
  rw [hlast]
  simp only [chooseDestination]
  rw [hlow, if_neg h1,
    if_pos (prefixB_append_true (strL "build_plan/") (strL "build_plan/")
      (lowerStr (lastSeg rel)) (by decide))]

/-- Re-plan of an image relocated into `Build_plan/assets/`. -/
theorem replan_bp_assets (rel : List Char)
    (h1 : ¬(lastSeg rel ∈ CANONICAL_ROOT_FILES ∨
      lowerStr (lastSeg rel) ∈ CANONICAL_ROOT_FILES)) :
    (chooseDestination (strL "Build_plan/assets/" ++ lastSeg rel)
      (lastSeg (strL "Build_plan/assets/" ++ lastSeg rel))).1 =
      strL "Build_plan/assets/" ++ lastSeg rel := by
  have hlast : lastSeg (strL "Build_plan/assets/" ++ lastSeg rel) =
      lastSeg rel := by
    rw [show strL "Build_plan/assets/" ++ lastSeg rel =
        (strL "Build_plan/assets" ++ ['/']) ++ lastSeg rel from by
      rw [show strL "Build_plan/assets/" =
        strL "Build_plan/assets" ++ ['/'] from by decide]]
    exact lastSeg_prefix_append _ rel
  have hlow : lowerStr (strL "Build_plan/assets/" ++ lastSeg rel) =
      strL "build_plan/assets/" ++ lowerStr (lastSeg rel) := by
    rw [lowerStr_append,
      show lowerStr (strL "Build_plan/assets/") = strL "build_plan/assets/"
        from by decide]
  rw [hlast]
  simp only [chooseDestination]
  rw [hlow, if_neg h1,
    if_pos (prefixB_append_true (strL "build_plan/") (strL "build_plan/assets/")
      (lowerStr (lastSeg rel)) (by decide))]

/-- Re-plan of a spec-like markdown file relocated into `spec/`. -/
theorem replan_spec_md (rel : List Char)
    (h1 : ¬(lastSeg rel ∈ CANONICAL_ROOT_FILES ∨
      lowerStr (lastSeg rel) ∈ CANONICAL_ROOT_FILES))
    (h4 : extOf (lastSeg rel) = strL ".md") :
    (chooseDestination (strL "spec/" ++ lastSeg rel)
      (lastSeg (strL "spec/" ++ lastSeg rel))).1 =
      strL "spec/" ++ lastSeg rel := by
  have hlast : lastSeg (strL "spec/" ++ lastSeg rel) = lastSeg rel := by
    rw [show strL "spec/" ++ lastSeg rel =
        (strL "spec" ++ ['/']) ++ lastSeg rel from by
      rw [show strL "spec/" = strL "spec" ++ ['/'] from by decide]]
    exact lastSeg_prefix_append _ rel
  have hlow : lowerStr (strL "spec/" ++ lastSeg rel) =
      strL "spec/" ++ lowerStr (lastSeg rel) := by
    rw [lowerStr_append,
      show lowerStr (strL "spec/") = strL "spec/" from by decide]
  rw [hlast]
  simp only [chooseDestination]
  rw [hlow, if_neg h1,
    if_neg (ne_true_of_eq_false (prefixB_append_false (strL "build_plan/")
      (strL "spec/") (lowerStr (lastSeg rel)) (by decide))),
    if_neg (fun hc => by rw [h4] at hc; exact absurd hc.1 (by decide)),
    if_pos h4,
    if_pos (any_pre (fun k => k) [strL "contract", strL "schema", strL "spec"]
      (strL "spec") (by decide) (strL "spec/") (lowerStr (lastSeg rel))
      (by decide))]

/-- Re-plan of a general markdown file relocated into `docs/`. -/
theorem replan_docs (rel : List Char)
    (h1 : ¬(lastSeg rel ∈ CANONICAL_ROOT_FILES ∨
      lowerStr (lastSeg rel) ∈ CANONICAL_ROOT_FILES))
    (h4 : extOf (lastSeg rel) = strL ".md")
    (h4b : ¬([strL "contract", strL "schema", strL "spec"].any
      (fun k => containsStr k (lowerStr rel))) = true) :
    (chooseDestination (strL "docs/" ++ lastSeg rel)
      (lastSeg (strL "docs/" ++ lastSeg rel))).1 =
      strL "docs/" ++ lastSeg rel := by
  have hlast : lastSeg (strL "docs/" ++ lastSeg rel) = lastSeg rel := by
    rw [show strL "docs/" ++ lastSeg rel =
        (strL "docs" ++ ['/']) ++ lastSeg rel from by
      rw [show strL "docs/" = strL "docs" ++ ['/'] from by decide]]
    exact lastSeg_prefix_append _ rel
  have hlow : lowerStr (strL "docs/" ++ lastSeg rel) =
      strL "docs/" ++ lowerStr (lastSeg rel) := by
    rw [lowerStr_append,
      show lowerStr (strL "docs/") = strL "docs/" from by decide]
  rw [hlast]
  simp only [chooseDestination]
  rw [hlow, if_neg h1,
    if_neg (ne_true_of_eq_false (prefixB_append_false (strL "build_plan/")
      (strL "docs/") (lowerStr (lastSeg rel)) (by decide))),
    if_neg (fun hc => by rw [h4] at hc; exact absurd hc.1 (by decide)),
    if_pos h4,
    if_neg (any_down (fun k => k) [strL "contract", strL "schema", strL "spec"]
      (strL "docs/") rel (by decide) h4b)]

/-- Re-plan of a schema/contract data file relocated into `spec/`. -/
theorem replan_spec_json (rel : List Char)
    (h1 : ¬(lastSeg rel ∈ CANONICAL_ROOT_FILES ∨
      lowerStr (lastSeg rel) ∈ CANONICAL_ROOT_FILES))
    (h5 : extOf (lastSeg rel) ∈ [strL ".json", strL ".yaml", strL ".yml"]) :
    (chooseDestination (strL "spec/" ++ lastSeg rel)
      (lastSeg (strL "spec/" ++ lastSeg rel))).1 =
      strL "spec/" ++ lastSeg rel := by
  have hlast : lastSeg (strL "spec/" ++ lastSeg rel) = lastSeg rel := by
    rw [show strL "spec/" ++ lastSeg rel =
        (strL "spec" ++ ['/']) ++ lastSeg rel from by
      rw [show strL "spec/" = strL "spec" ++ ['/'] from by decide]]
    exact lastSeg_prefix_append _ rel
  have hlow : lowerStr (strL "spec/" ++ lastSeg rel) =
      strL "spec/" ++ lowerStr (lastSeg rel) := by
    rw [lowerStr_append,
      show lowerStr (strL "spec/") = strL "spec/" from by decide]
  rw [hlast]
  simp only [chooseDestination]
  rw [hlow, if_neg h1,
    if_neg (ne_true_of_eq_false (prefixB_append_false (strL "build_plan/")
      (strL "spec/") (lowerStr (lastSeg rel)) (by decide))),
    if_neg (fun hc => absurd hc.1 (ext_ne_of_mem h5 (by decide))),
    if_neg (ext_ne_of_mem h5 (by decide)),
    if_pos ⟨h5, any_pre (fun k => k)
      [strL "schema", strL "contract", strL "spec"] (strL "spec") (by decide)
      (strL "spec/") (lowerStr (lastSeg rel)) (by decide)⟩]

/-- Re-plan of a tooling script relocated into `tools/`. -/
theorem replan_tools (rel : List Char)
    (h1 : ¬(lastSeg rel ∈ CANONICAL_ROOT_FILES ∨
      lowerStr (lastSeg rel) ∈ CANONICAL_ROOT_FILES))
    (h6 : extOf (lastSeg rel) ∈
      [strL ".py", strL ".js", strL ".ts", strL ".tsx", strL ".jsx"]) :
    (chooseDestination (strL "tools/" ++ lastSeg rel)
      (lastSeg (strL "tools/" ++ lastSeg rel))).1 =
      strL "tools/" ++ lastSeg rel := by
  have hlast : lastSeg (strL "tools/" ++ lastSeg rel) = lastSeg rel := by
    rw [show strL "tools/" ++ lastSeg rel =
        (strL "tools" ++ ['/']) ++ lastSeg rel from by
      rw [show strL "tools/" = strL "tools" ++ ['/'] from by decide]]
    exact lastSeg_prefix_append _ rel
  have hlow : lowerStr (strL "tools/" ++ lastSeg rel) =
      strL "tools/" ++ lowerStr (lastSeg rel) := by
    rw [lowerStr_append,
      show lowerStr (strL "tools/") = strL "tools/" from by decide]
  rw [hlast]
  simp only [chooseDestination]
  rw [hlow, if_neg h1,
    if_neg (ne_true_of_eq_false (prefixB_append_false (strL "build_plan/")
      (strL "tools/") (lowerStr (lastSeg rel)) (by decide))),
    if_neg (fun hc => absurd hc.1 (ext_ne_of_mem h6 (by decide))),
    if_neg (ext_ne_of_mem h6 (by decide)),
    if_neg (fun hc => absurd hc.1 (ext_not_mem_of_mem h6 (by decide))),
    if_pos h6,
    if_pos (any_pre (fun k => k)
      [strL "tool", strL "script", strL "build", strL "validate", strL "export"]
      (strL "tool") (by decide) (strL "tools/") (lowerStr (lastSeg rel))
      (by decide))]

/-- Re-plan of a source file relocated into `src/`. -/
theorem replan_src (rel : List Char)
    (h1 : ¬(lastSeg rel ∈ CANONICAL_ROOT_FILES ∨
      lowerStr (lastSeg rel) ∈ CANONICAL_ROOT_FILES))
    (h6 : extOf (lastSeg rel) ∈
      [strL ".py", strL ".js", strL ".ts", strL ".tsx", strL ".jsx"])
    (h6b : ¬([strL "tool", strL "script", strL "build", strL "validate",
      strL "export"].any (fun k => containsStr k (lowerStr rel))) = true) :
    (chooseDestination (strL "src/" ++ lastSeg rel)
      (lastSeg (strL "src/" ++ lastSeg rel))).1 =
      strL "src/" ++ lastSeg rel := by
  have hlast : lastSeg (strL "src/" ++ lastSeg rel) = lastSeg rel := by
    rw [show strL "src/" ++ lastSeg rel =
        (strL "src" ++ ['/']) ++ lastSeg rel from by
      rw [show strL "src/" = strL "src" ++ ['/'] from by decide]]
    exact lastSeg_prefix_append _ rel
  have hlow : lowerStr (strL "src/" ++ lastSeg rel) =
      strL "src/" ++ lowerStr (lastSeg rel) := by
    rw [lowerStr_append,
      show lowerStr (strL "src/") = strL "src/" from by decide]
  rw [hlast]
  simp only [chooseDestination]
  rw [hlow, if_neg h1,
    if_neg (ne_true_of_eq_false (prefixB_append_false (strL "build_plan/")
      (strL "src/") (lowerStr (lastSeg rel)) (by decide))),
    if_neg (fun hc => absurd hc.1 (ext_ne_of_mem h6 (by decide))),
    if_neg (ext_ne_of_mem h6 (by decide)),
    if_neg (fun hc => absurd hc.1 (ext_not_mem_of_mem h6 (by decide))),
    if_pos h6,
    if_neg (any_down (fun k => k)
      [strL "tool", strL "script", strL "build", strL "validate", strL "export"]
      (strL "src/") rel (by decide) h6b)]

/-- Re-plan of a documentation image relocated into `docs/assets/`. -/
theorem replan_docs_assets (rel : List Char)
    (h1 : ¬(lastSeg rel ∈ CANONICAL_ROOT_FILES ∨
      lowerStr (lastSeg rel) ∈ CANONICAL_ROOT_FILES))
    (h7 : extOf (lastSeg rel) ∈ [strL ".png", strL ".jpg", strL ".jpeg",
      strL ".webp", strL ".gif", strL ".svg"])
    (h7b : ¬([strL "build_plan", strL "micro", strL "reader", strL "module",
      strL "m0", strL "m1", strL "m2", strL "m3", strL "m4",
      strL "m5", strL "m6", strL "m7", strL "m8"].any
      (fun k => containsStr k (lowerStr rel))) = true) :
    (chooseDestination (strL "docs/assets/" ++ lastSeg rel)
      (lastSeg (strL "docs/assets/" ++ lastSeg rel))).1 =
      strL "docs/assets/" ++ lastSeg rel := by
  have hlast : lastSeg (strL "docs/assets/" ++ lastSeg rel) = lastSeg rel := by
    rw [show strL "docs/assets/" ++ lastSeg rel =
        (strL "docs/assets" ++ ['/']) ++ lastSeg rel from by
      rw [show strL "docs/assets/" = strL "docs/assets" ++ ['/'] from by decide]]
    exact lastSeg_prefix_append _ rel
  have hlow : lowerStr (strL "docs/assets/" ++ lastSeg rel) =
      strL "docs/assets/" ++ lowerStr (lastSeg rel) := by
    rw [lowerStr_append,
      show lowerStr (strL "docs/assets/") = strL "docs/assets/" from by decide]
  rw [hlast]
  simp only [chooseDestination]
  rw [hlow, if_neg h1,
    if_neg (ne_true_of_eq_false (prefixB_append_false (strL "build_plan/")
      (strL "docs/assets/") (lowerStr (lastSeg rel)) (by decide))),
    if_neg (fun hc => absurd hc.1 (ext_ne_of_mem h7 (by decide))),
    if_neg (ext_ne_of_mem h7 (by decide)),
    if_neg (fun hc => absurd hc.1 (ext_not_mem_of_mem h7 (by decide))),
    if_neg (ext_not_mem_of_mem h7 (by decide)),
    if_pos h7,
    if_neg (any_down (fun k => k)
      [strL "build_plan", strL "micro", strL "reader", strL "module",
       strL "m0", strL "m1", strL "m2", strL "m3", strL "m4",
       strL "m5", strL "m6", strL "m7", strL "m8"]
      (strL "docs/assets/") rel (by decide) h7b)]

/-- Re-plan of a fixture file relocated into `fixtures/`. -/
theorem replan_fixtures (rel : List Char)
    (h1 : ¬(lastSeg rel ∈ CANONICAL_ROOT_FILES ∨
      lowerStr (lastSeg rel) ∈ CANONICAL_ROOT_FILES))
    (h3 : ¬(extOf (lastSeg rel) = strL ".html" ∧
      (BUILD_PLAN_HINTS.any
        (fun h => containsStr (lowerStr h) (lowerStr rel))) = true))
    (h4 : ¬ extOf (lastSeg rel) = strL ".md")
    (h5 : ¬(extOf (lastSeg rel) ∈ [strL ".json", strL ".yaml", strL ".yml"] ∧
      ([strL "schema", strL "contract", strL "spec"].any
        (fun k => containsStr k (lowerStr rel))) = true))
    (h6 : ¬ extOf (lastSeg rel) ∈
      [strL ".py", strL ".js", strL ".ts", strL ".tsx", strL ".jsx"])
    (h7 : ¬ extOf (lastSeg rel) ∈ [strL ".png", strL ".jpg", strL ".jpeg",
      strL ".webp", strL ".gif", strL ".svg"]) :
    (chooseDestination (strL "fixtures/" ++ lastSeg rel)
      (lastSeg (strL "fixtures/" ++ lastSeg rel))).1 =
      strL "fixtures/" ++ lastSeg rel := by
  have hlast : lastSeg (strL "fixtures/" ++ lastSeg rel) = lastSeg rel := by
    rw [show strL "fixtures/" ++ lastSeg rel =
        (strL "fixtures" ++ ['/']) ++ lastSeg rel from by
      rw [show strL "fixtures/" = strL "fixtures" ++ ['/'] from by decide]]
    exact lastSeg_prefix_append _ rel
  have hlow : lowerStr (strL "fixtures/" ++ lastSeg rel) =
      strL "fixtures/" ++ lowerStr (lastSeg rel) := by
    rw [lowerStr_append,
      show lowerStr (strL "fixtures/") = strL "fixtures/" from by decide]
  rw [hlast]
  simp only [chooseDestination]
  rw [hlow, if_neg h1,
    if_neg (ne_true_of_eq_false (prefixB_append_false (strL "build_plan/")
      (strL "fixtures/") (lowerStr (lastSeg rel)) (by decide))),
    if_neg (fun hc => h3 ⟨hc.1, any_up lowerStr BUILD_PLAN_HINTS
      (strL "fixtures/") rel (by decide) hc.2⟩),
    if_neg h4,
    if_neg (fun hc => h5 ⟨hc.1, any_up (fun k => k)
      [strL "schema", strL "contract", strL "spec"]
      (strL "fixtures/") rel (by decide) hc.2⟩),
    if_neg h6,
    if_neg h7,
    if_pos (any_pre (fun k => k)
      [strL "fixture", strL "toybook", strL "book1window"]
      (strL "fixture") (by decide) (strL "fixtures/") (lowerStr (lastSeg rel))
      (by decide))]

/-- Re-plan of a golden output relocated into `golden/`. -/
theorem replan_golden (rel : List Char)
    (h1 : ¬(lastSeg rel ∈ CANONICAL_ROOT_FILES ∨
      lowerStr (lastSeg rel) ∈ CANONICAL_ROOT_FILES))
    (h3 : ¬(extOf (lastSeg rel) = strL ".html" ∧
      (BUILD_PLAN_HINTS.any
        (fun h => containsStr (lowerStr h) (lowerStr rel))) = true))
    (h4 : ¬ extOf (lastSeg rel) = strL ".md")
    (h5 : ¬(extOf (lastSeg rel) ∈ [strL ".json", strL ".yaml", strL ".yml"] ∧
      ([strL "schema", strL "contract", strL "spec"].any
        (fun k => containsStr k (lowerStr rel))) = true))
    (h6 : ¬ extOf (lastSeg rel) ∈
      [strL ".py", strL ".js", strL ".ts", strL ".tsx", strL ".jsx"])
    (h7 : ¬ extOf (lastSeg rel) ∈ [strL ".png", strL ".jpg", strL ".jpeg",
      strL ".webp", strL ".gif", strL ".svg"])
    (h8 : ¬([strL "fixture", strL "toybook", strL "book1window"].any
      (fun k => containsStr k (lowerStr rel))) = true) :
    (chooseDestination (strL "golden/" ++ lastSeg rel)
      (lastSeg (strL "golden/" ++ lastSeg rel))).1 =
      strL "golden/" ++ lastSeg rel := by
  have hlast : lastSeg (strL "golden/" ++ lastSeg rel) = lastSeg rel := by
    rw [show strL "golden/" ++ lastSeg rel =
        (strL "golden" ++ ['/']) ++ lastSeg rel from by
      rw [show strL "golden/" = strL "golden" ++ ['/'] from by decide]]
    exact lastSeg_prefix_append _ rel
  have hlow : lowerStr (strL "golden/" ++ lastSeg rel) =
      strL "golden/" ++ lowerStr (lastSeg rel) := by
    rw [lowerStr_append,
      show lowerStr (strL "golden/") = strL "golden/" from by decide]
  rw [hlast]
  simp only [chooseDestination]
  rw [hlow, if_neg h1,
    if_neg (ne_true_of_eq_false (prefixB_append_false (strL "build_plan/")
      (strL "golden/") (lowerStr (lastSeg rel)) (by decide))),
    if_neg (fun hc => h3 ⟨hc.1, any_up lowerStr BUILD_PLAN_HINTS
      (strL "golden/") rel (by decide) hc.2⟩),
    if_neg h4,
    if_neg (fun hc => h5 ⟨hc.1, any_up (fun k => k)
      [strL "schema", strL "contract", strL "spec"]
      (strL "golden/") rel (by decide) hc.2⟩),
    if_neg h6,
    if_neg h7,
    if_neg (any_down (fun k => k)
      [strL "fixture", strL "toybook", strL "book1window"]
      (strL "golden/") rel (by decide) h8),
    if_pos (any_pre (fun k => k)
      [strL "golden", strL "snapshot", strL "expected_output"]
      (strL "golden") (by decide) (strL "golden/") (lowerStr (lastSeg rel))
      (by decide))]

/-- Re-plan of a keep-extension file relocated into `docs/misc/`. -/
theorem replan_docs_misc (rel : List Char)
    (h1 : ¬(lastSeg rel ∈ CANONICAL_ROOT_FILES ∨
      lowerStr (lastSeg rel) ∈ CANONICAL_ROOT_FILES))
    (h3 : ¬(extOf (lastSeg rel) = strL ".html" ∧
      (BUILD_PLAN_HINTS.any
        (fun h => containsStr (lowerStr h) (lowerStr rel))) = true))
    (h4 : ¬ extOf (lastSeg rel) = strL ".md")
    (h5 : ¬(extOf (lastSeg rel) ∈ [strL ".json", strL ".yaml", strL ".yml"] ∧
      ([strL "schema", strL "contract", strL "spec"].any
        (fun k => containsStr k (lowerStr rel))) = true))
    (h6 : ¬ extOf (lastSeg rel) ∈
      [strL ".py", strL ".js", strL ".ts", strL ".tsx", strL ".jsx"])
    (h7 : ¬ extOf (lastSeg rel) ∈ [strL ".png", strL ".jpg", strL ".jpeg",
      strL ".webp", strL ".gif", strL ".svg"])
    (h8 : ¬([strL "fixture", strL "toybook", strL "book1window"].any
      (fun k => containsStr k (lowerStr rel))) = true)
    (h9 : ¬([strL "golden", strL "snapshot", strL "expected_output"].any
      (fun k => containsStr k (lowerStr rel))) = true)
    (h10 : extOf (lastSeg rel) ∈ KEEP_EXTENSIONS) :
    (chooseDestination (strL "docs/misc/" ++ lastSeg rel)
      (lastSeg (strL "docs/misc/" ++ lastSeg rel))).1 =
      strL "docs/misc/" ++ lastSeg rel := by
  have hlast : lastSeg (strL "docs/misc/" ++ lastSeg rel) = lastSeg rel := by
    rw [show strL "docs/misc/" ++ lastSeg rel =
        (strL "docs/misc" ++ ['/']) ++ lastSeg rel from by
      rw [show strL "docs/misc/" = strL "docs/misc" ++ ['/'] from by decide]]
    exact lastSeg_prefix_append _ rel
  have hlow : lowerStr (strL "docs/misc/" ++ lastSeg rel) =
      strL "docs/misc/" ++ lowerStr (lastSeg rel) := by
    rw [lowerStr_append,
      show lowerStr (strL "docs/misc/") = strL "docs/misc/" from by decide]
  rw [hlast]
  simp only [chooseDestination]
  rw [hlow, if_neg h1,
    if_neg (ne_true_of_eq_false (prefixB_append_false (strL "build_plan/")
      (strL "docs/misc/") (lowerStr (lastSeg rel)) (by decide))),
    if_neg (fun hc => h3 ⟨hc.1, any_up lowerStr BUILD_PLAN_HINTS
      (strL "docs/misc/") rel (by decide) hc.2⟩),
    if_neg h4,
    if_neg (fun hc => h5 ⟨hc.1, any_up (fun k => k)
      [strL "schema", strL "contract", strL "spec"]
      (strL "docs/misc/") rel (by decide) hc.2⟩),
    if_neg h6,
    if_neg h7,
    if_neg (any_down (fun k => k)
      [strL "fixture", strL "toybook", strL "book1window"]
      (strL "docs/misc/") rel (by decide) h8),
    if_neg (any_down (fun k => k)
      [strL "golden", strL "snapshot", strL "expected_output"]
      (strL "docs/misc/") rel (by decide) h9),
    if_pos h10]

/-- The destination classifier is idempotent on destinations other than the
file itself and the unknown-review bucket: re-classifying a chosen
destination maps it to itself. -/
theorem chooseDestination_idem (rel d r : List Char)
    (hcd : chooseDestination rel (lastSeg rel) = (d, r))
    (hne : ¬ d = rel)
    (hnu : ¬ prefixB (strL "archive/_unknown_review/") d = true) :
    (chooseDestination d (lastSeg d)).1 = d := by
  simp only [chooseDestination] at hcd
  by_cases h1 : lastSeg rel ∈ CANONICAL_ROOT_FILES ∨
      lowerStr (lastSeg rel) ∈ CANONICAL_ROOT_FILES
  · rw [if_pos h1, Prod.mk.injEq] at hcd
    obtain ⟨hd, -⟩ := hcd
    subst hd
    exact replan_canonical rel h1
  · rw [if_neg h1] at hcd
    by_cases h2 : prefixB (strL "build_plan/") (lowerStr rel) = true
    · rw [if_pos h2, Prod.mk.injEq] at hcd
      exact absurd hcd.1.symm hne
    · rw [if_neg h2] at hcd
      by_cases h3 : extOf (lastSeg rel) = strL ".html" ∧
          (BUILD_PLAN_HINTS.any
            (fun h => containsStr (lowerStr h) (lowerStr rel))) = true
      · rw [if_pos h3, Prod.mk.injEq] at hcd
        obtain ⟨hd, -⟩ := hcd
        subst hd
        exact replan_buildplan rel h1
      · rw [if_neg h3] at hcd
        by_cases h4 : extOf (lastSeg rel) = strL ".md"
        · rw [if_pos h4] at hcd
          by_cases h4b : ([strL "contract", strL "schema", strL "spec"].any
              (fun k => containsStr k (lowerStr rel))) = true
          · rw [if_pos h4b, Prod.mk.injEq] at hcd
            obtain ⟨hd, -⟩ := hcd
            subst hd
            exact replan_spec_md rel h1 h4
          · rw [if_neg h4b, Prod.mk.injEq] at hcd
            obtain ⟨hd, -⟩ := hcd
            subst hd
            exact replan_docs rel h1 h4 h4b
        · rw [if_neg h4] at hcd
          by_cases h5 : extOf (lastSeg rel) ∈
              [strL ".json", strL ".yaml", strL ".yml"] ∧
              ([strL "schema", strL "contract", strL "spec"].any
                (fun k => containsStr k (lowerStr rel))) = true
          · rw [if_pos h5, Prod.mk.injEq] at hcd
            obtain ⟨hd, -⟩ := hcd
            subst hd
            exact replan_spec_json rel h1 h5.1
          · rw [if_neg h5] at hcd
            by_cases h6 : extOf (lastSeg rel) ∈
                [strL ".py", strL ".js", strL ".ts", strL ".tsx", strL ".jsx"]
            · rw [if_pos h6] at hcd
              by_cases h6b : ([strL "tool", strL "script", strL "build",
                  strL "validate", strL "export"].any
                  (fun k => containsStr k (lowerStr rel))) = true
              · rw [if_pos h6b, Prod.mk.injEq] at hcd
                obtain ⟨hd, -⟩ := hcd
                subst hd
                exact replan_tools rel h1 h6
              · rw [if_neg h6b, Prod.mk.injEq] at hcd
                obtain ⟨hd, -⟩ := hcd
                subst hd
                exact replan_src rel h1 h6 h6b
            · rw [if_neg h6] at hcd
              by_cases h7 : extOf (lastSeg rel) ∈ [strL ".png", strL ".jpg",
                  strL ".jpeg", strL ".webp", strL ".gif", strL ".svg"]
              · rw [if_pos h7] at hcd
                by_cases h7b : ([strL "build_plan", strL "micro",
                    strL "reader", strL "module", strL "m0", strL "m1",
                    strL "m2", strL "m3", strL "m4", strL "m5", strL "m6",
                    strL "m7", strL "m8"].any
                    (fun k => containsStr k (lowerStr rel))) = true
                · rw [if_pos h7b, Prod.mk.injEq] at hcd
                  obtain ⟨hd, -⟩ := hcd
                  subst hd
                  exact replan_bp_assets rel h1
                · rw [if_neg h7b, Prod.mk.injEq] at hcd
                  obtain ⟨hd, -⟩ := hcd
                  subst hd
                  exact replan_docs_assets rel h1 h7 h7b
              · rw [if_neg h7] at hcd
                by_cases h8 : ([strL "fixture", strL "toybook",
                    strL "book1window"].any
                    (fun k => containsStr k (lowerStr rel))) = true
                · rw [if_pos h8, Prod.mk.injEq] at hcd
                  obtain ⟨hd, -⟩ := hcd
                  subst hd
                  exact replan_fixtures rel h1 h3 h4 h5 h6 h7
                · rw [if_neg h8] at hcd
                  by_cases h9 : ([strL "golden", strL "snapshot",
                      strL "expected_output"].any
                      (fun k => containsStr k (lowerStr rel))) = true
                  · rw [if_pos h9, Prod.mk.injEq] at hcd
                    obtain ⟨hd, -⟩ := hcd
                    subst hd
                    exact replan_golden rel h1 h3 h4 h5 h6 h7 h8
                  · rw [if_neg h9] at hcd
                    by_cases h10 : extOf (lastSeg rel) ∈ KEEP_EXTENSIONS
                    · rw [if_pos h10, Prod.mk.injEq] at hcd
                      obtain ⟨hd, -⟩ := hcd
                      subst hd
                      exact replan_docs_misc rel h1 h3 h4 h5 h6 h7 h8 h9 h10
                    · rw [if_neg h10, Prod.mk.injEq] at hcd
                      obtain ⟨hd, -⟩ := hcd
                      exact absurd (hd ▸ prefixB_append_true
                        (strL "archive/_unknown_review/")
                        (strL "archive/_unknown_review/") (lastSeg rel)
                        (by decide)) hnu

end RepoReorg

namespace RepoReorg

/-- A planned move determines the classifier pair: the destination is the
classifier's first component, differs from the source, and is not in the
unknown-review bucket. -/
theorem planDest_move_dest (rec : FileRecord) (rel d : List Char)
    (hplan : (planDest rec rel (lastSeg rel)).action = Action.MOVE_TO_DEST)
    (hdest : (planDest rec rel (lastSeg rel)).dest_rel_path = some d) :
    chooseDestination rel (lastSeg rel) =
      (d, (chooseDestination rel (lastSeg rel)).2) ∧
    ¬ d = rel ∧
    ¬ prefixB (strL "archive/_unknown_review/") d = true := by
  simp only [planDest] at hplan hdest
  by_cases hid : rel = (chooseDestination rel (lastSeg rel)).1
  · rw [if_pos hid] at hplan
    simp only [] at hplan
    exact absurd hplan (by decide)
  · rw [if_neg hid] at hplan hdest
    by_cases hunk : prefixB (strL "archive/_unknown_review/")
        (chooseDestination rel (lastSeg rel)).1 = true
    · rw [if_pos hunk] at hplan
      simp only [] at hplan
      exact absurd hplan (by decide)
    · rw [if_neg hunk] at hplan hdest
      have hd2 : (chooseDestination rel (lastSeg rel)).1 = d := by
        simpa using hdest
      refine ⟨?_, ?_, ?_⟩
      · rw [← hd2]
      · intro h
        rw [h] at hd2
        exact hid hd2.symm
      · rw [hd2] at hunk
        exact hunk

end RepoReorg

/-- C2: counterexample.  `snapshot/foo.txt` is planned as a move to its
classified destination `golden/foo.txt`, but re-planning that destination
does not keep it in place: the not-needed token filter fires on the
substring `old` of `golden` and re-archives it. -/
theorem c2_counterexample :
    (RepoReorg.planOne (strL "snapshot/foo.txt")).action =
      RepoReorg.Action.MOVE_TO_DEST ∧
    (RepoReorg.planOne (strL "snapshot/foo.txt")).dest_rel_path =
      some (strL "golden/foo.txt") ∧
    (RepoReorg.planOne (strL "golden/foo.txt")).action =
      RepoReorg.Action.MOVE_TO_ARCHIVE_NOT_NEEDED := by
  decide

/-- C2 (amended): for every file planned as a move to its classified
destination, re-planning the destination path marks it KEEP_IN_PLACE,
provided the destination does not itself trigger the not-needed filter
(which `golden/` destinations always do, via the token `old`). -/
theorem c2_amended (rel d : List Char)
    (hplan : (RepoReorg.planOne rel).action = RepoReorg.Action.MOVE_TO_DEST)
    (hdest : (RepoReorg.planOne rel).dest_rel_path = some d)
    (hnn : RepoReorg.classifyNotNeeded (lastSeg d) d = none) :
    (RepoReorg.planOne d).action = RepoReorg.Action.KEEP_IN_PLACE := by
  have hdup : ∀ x : List Char, ¬(false = true ∧ x ∈ ([] : List (List Char))) :=
    fun x hc => by simpa using hc.1
  simp only [RepoReorg.planOne, RepoReorg.planRecord] at hplan hdest
  rw [if_neg (hdup rel)] at hplan hdest
  have hkey : RepoReorg.chooseDestination rel (lastSeg rel) =
      (d, (RepoReorg.chooseDestination rel (lastSeg rel)).2) ∧
      ¬ d = rel ∧
      ¬ prefixB (strL "archive/_unknown_review/") d = true := by
    cases hcn2 : RepoReorg.classifyNotNeeded (lastSeg rel) rel with
    | some r0 =>
      rw [hcn2] at hplan hdest
      simp only [] at hplan hdest
      by_cases harch : prefixB (strL "archive/") (lowerStr rel) = true
      · rw [if_pos harch] at hplan hdest
        exact RepoReorg.planDest_move_dest _ rel d hplan hdest
      · rw [if_neg harch] at hplan
        simp only [] at hplan
        exact absurd hplan (by decide)
    | none =>
      rw [hcn2] at hplan hdest
      simp only [] at hplan hdest
      exact RepoReorg.planDest_move_dest _ rel d hplan hdest
  obtain ⟨hcd, hne, hnu⟩ := hkey
  have hmain := RepoReorg.chooseDestination_idem rel d _ hcd hne hnu
  simp only [RepoReorg.planOne, RepoReorg.planRecord]
  rw [if_neg (hdup d), hnn]
  simp only []
  simp only [RepoReorg.planDest]
  rw [if_pos hmain.symm]

/-- C2 (amended): witness at `stuff/notes.md`, planned to `docs/notes.md`,
whose re-plan keeps it in place. -/
theorem c2_amended_witness :
    (RepoReorg.planOne (strL "stuff/notes.md")).action =
        RepoReorg.Action.MOVE_TO_DEST ∧
    (RepoReorg.planOne (strL "stuff/notes.md")).dest_rel_path =
        some (strL "docs/notes.md") ∧
    RepoReorg.classifyNotNeeded (lastSeg (strL "docs/notes.md"))
        (strL "docs/notes.md") = none ∧
    (RepoReorg.planOne (strL "docs/notes.md")).action =
        RepoReorg.Action.KEEP_IN_PLACE :=
  ⟨by decide, by decide, by decide,
   c2_amended (strL "stuff/notes.md") (strL "docs/notes.md")
     (by decide) (by decide) (by decide)⟩
